/-
Verification of the elliptic-curve point arithmetic over GF(p)
(`src/math/numbertheory/point_gfp.cpp`): Jacobian-projective points in
Montgomery domain, point addition/doubling/scalar multiplication, affine
conversion, the curve-equation invariant check, and the SEC1 octet-string
codec (EC2OSP / OS2ECP with point decompression).

The big-integer layer (`BigInt`), the curve-domain storage (`CurveGFp`),
the Barrett reducer (`Modular_Reducer`) and the number-theory helpers
(`inverse_mod`, `ressol`, `bigint_monty_redc`) are external collaborators
of this translation unit; they are embedded by their interface contracts,
with signed arbitrary-precision integers as `Int` and the modulus as `Nat`.
-/
import Mathlib

namespace Botan

/-- The exception kinds raised by this translation unit
(`Illegal_Transformation`, `Illegal_Point`, `Invalid_Argument`). -/
inductive BotanErr where
  | illegalTransformation
  | illegalPoint
  | invalidArgument
deriving DecidableEq, Repr

instance {ε α : Type} [DecidableEq ε] [DecidableEq α] : DecidableEq (Except ε α)
  | .error e1, .error e2 => decidable_of_iff (e1 = e2) (by simp)
  | .error _, .ok _ => isFalse (by simp)
  | .ok _, .error _ => isFalse (by simp)
  | .ok a1, .ok a2 => decidable_of_iff (a1 = a2) (by simp)

/-- Curve domain parameters, an external collaborator (`curve_gfp.h`):
prime modulus `p`, coefficients `a`, `b`, the Montgomery residue
`r = R mod p`, its inverse `r_inv = R⁻¹ mod p`, and the precomputed
`a_r = a·R mod p` returned by `get_a_r()`. -/
structure CurveGFp where
  p : Nat
  a : Int
  b : Int
  r : Int
  r_inv : Int
  a_r : Int
deriving DecidableEq, Repr

/-- Modelled from the spec: `CurveGFp::operator==` (external collaborator)
compares curves "by domain parameters, not reference". -/
def CurveGFp.paramEq (c1 c2 : CurveGFp) : Prop :=
  c1.p = c2.p ∧ c1.a = c2.a ∧ c1.b = c2.b

instance (c1 c2 : CurveGFp) : Decidable (c1.paramEq c2) :=
  decidable_of_iff (c1.p = c2.p ∧ c1.a = c2.a ∧ c1.b = c2.b) Iff.rfl

/-- A well-formed curve domain: the modulus is an odd prime and the
precomputed Montgomery constants are consistent. -/
structure CurveGFp.WF (c : CurveGFp) : Prop where
  p_prime : Nat.Prime c.p
  p_odd : c.p % 2 = 1
  rr : (c.r * c.r_inv) % (c.p : Int) = 1

/-- `Modular_Reducer::reduce` (external): reduction into `[0, p)`,
including for negative inputs (Lean's `Int.emod` with positive modulus). -/
def CurveGFp.reduce (c : CurveGFp) (x : Int) : Int := x % (c.p : Int)

/-- `Modular_Reducer::multiply` (external): `(a * b) mod p`. -/
def CurveGFp.mmul (c : CurveGFp) (x y : Int) : Int := (x * y) % (c.p : Int)

/-- `Modular_Reducer::square` (external): `x² mod p`. -/
def CurveGFp.msqr (c : CurveGFp) (x : Int) : Int := (x * x) % (c.p : Int)

/-- `Modular_Reducer::cube` (external): `x³ mod p`. -/
def CurveGFp.mcube (c : CurveGFp) (x : Int) : Int := (x * x * x) % (c.p : Int)

/-- `PointGFp::monty_mult`: zero operands short-circuit to zero; otherwise
the simple product is fed to the external `bigint_monty_redc`, whose REDC
contract on a double-width product is multiplication by `R⁻¹ mod p`. -/
def CurveGFp.monty_mult (c : CurveGFp) (a b : Int) : Int :=
  if a = 0 ∨ b = 0 then 0
  else (a * b * c.r_inv) % (c.p : Int)

/-- `PointGFp::monty_sqr`: as `monty_mult` with a dedicated squaring. -/
def CurveGFp.monty_sqr (c : CurveGFp) (x : Int) : Int :=
  if x = 0 then 0
  else (x * x * c.r_inv) % (c.p : Int)

/-- Closed form of the renormalization loop `while(v.is_negative()) v += p`
for a positive modulus `p`: adding `p` until nonnegative lands on `v mod p`
when `v` is negative and leaves `v` unchanged otherwise. -/
def whileAddP (p v : Int) : Int := if v < 0 then v % p else v

/-- `PointGFp`: a point in Jacobian projective coordinates whose field
elements are kept in the Montgomery domain, tied to its curve. -/
structure PointGFp where
  curve : CurveGFp
  coord_x : Int
  coord_y : Int
  coord_z : Int
deriving DecidableEq, Repr

/-- `PointGFp::PointGFp(const CurveGFp&)`: the zero/infinity point,
with `coord_x = 0`, `coord_y = curve.get_r()`, `coord_z = 0`. -/
def PointGFp.zero (curve : CurveGFp) : PointGFp :=
  ⟨curve, 0, curve.r, 0⟩

/-- `PointGFp::PointGFp(curve, x, y)`: affine coordinates are lifted into
the Montgomery domain and `z` is set to the reduced Montgomery residue
of one (`mod_p.reduce(curve.get_r())`). -/
def PointGFp.fromAffine (curve : CurveGFp) (x y : Int) : PointGFp :=
  ⟨curve,
   curve.mmul curve.r x,
   curve.mmul curve.r y,
   curve.reduce curve.r⟩

/-- Modelled from the spec: `PointGFp::is_zero` (declared in
`point_gfp.h`, which is not part of the sources): a triple represents
the point at infinity exactly when `z == 0`. -/
def PointGFp.is_zero (pt : PointGFp) : Prop := pt.coord_z = 0

instance (pt : PointGFp) : Decidable pt.is_zero :=
  decidable_of_iff (pt.coord_z = 0) Iff.rfl

/-- Modelled from the spec: `PointGFp::negate` (declared in
`point_gfp.h`, which is not part of the sources): point negation is
affine `(x, y) ↦ (x, −y)`; on the stored coordinates of a finite point
this is `coord_y := p − coord_y`, and infinity is left unchanged. -/
def PointGFp.negate (pt : PointGFp) : PointGFp :=
  if pt.is_zero then pt
  else { pt with coord_y := (pt.curve.p : Int) - pt.coord_y }

/-- `PointGFp::mult2`: doubling in place (`*this *= 2`). -/
def PointGFp.mult2 (pt : PointGFp) : PointGFp :=
  if pt.is_zero then pt
  else if pt.coord_y = 0 then PointGFp.zero pt.curve
  else
    let c := pt.curve
    let p : Int := (c.p : Int)
    let y_2 := c.monty_sqr pt.coord_y
    let S := c.reduce (4 * c.monty_mult pt.coord_x y_2)
    let z4 := c.monty_sqr (c.monty_sqr pt.coord_z)
    let a_z4 := c.monty_mult c.a_r z4
    let M := c.reduce (a_z4 + 3 * c.monty_sqr pt.coord_x)
    let x := c.reduce (c.monty_sqr M - 2 * S)
    let U := c.reduce (c.monty_sqr y_2 * 8)
    let S1 := whileAddP p (S - x)
    let y0 := c.monty_mult M S1 - U
    let y := if y0 < 0 then y0 + p else y0
    let z0 := 2 * c.monty_mult pt.coord_y pt.coord_z
    let z := if z0 ≥ p then z0 - p else z0
    { pt with coord_x := x, coord_y := y, coord_z := z }

/-- The quantity `H = mod_p.reduce(U2 - U1)` computed by `PointGFp::add`
for two finite operands. -/
def PointGFp.addH (lhs rhs : PointGFp) : Int :=
  let c := lhs.curve
  let rhs_z2 := c.monty_sqr rhs.coord_z
  let U1 := c.monty_mult lhs.coord_x rhs_z2
  let lhs_z2 := c.monty_sqr lhs.coord_z
  let U2 := c.monty_mult rhs.coord_x lhs_z2
  c.reduce (U2 - U1)

/-- The quantity `r = mod_p.reduce(S2 - S1)` computed by `PointGFp::add`
for two finite operands. -/
def PointGFp.addR (lhs rhs : PointGFp) : Int :=
  let c := lhs.curve
  let rhs_z2 := c.monty_sqr rhs.coord_z
  let S1 := c.monty_mult lhs.coord_y (c.monty_mult rhs.coord_z rhs_z2)
  let lhs_z2 := c.monty_sqr lhs.coord_z
  let S2 := c.monty_mult rhs.coord_y (c.monty_mult lhs.coord_z lhs_z2)
  c.reduce (S2 - S1)

/-- `PointGFp::add`: mixed Jacobian addition. Infinity operands are
handled by coordinate copy / no-op; `H = 0` with `r = 0` delegates to
doubling, `H = 0` with `r ≠ 0` yields infinity. -/
def PointGFp.add (lhs rhs : PointGFp) : PointGFp :=
  if lhs.is_zero then
    { lhs with coord_x := rhs.coord_x, coord_y := rhs.coord_y, coord_z := rhs.coord_z }
  else if rhs.is_zero then lhs
  else
    let c := lhs.curve
    let p : Int := (c.p : Int)
    let rhs_z2 := c.monty_sqr rhs.coord_z
    let U1 := c.monty_mult lhs.coord_x rhs_z2
    let S1 := c.monty_mult lhs.coord_y (c.monty_mult rhs.coord_z rhs_z2)
    let lhs_z2 := c.monty_sqr lhs.coord_z
    let U2 := c.monty_mult rhs.coord_x lhs_z2
    let S2 := c.monty_mult rhs.coord_y (c.monty_mult lhs.coord_z lhs_z2)
    let H := c.reduce (U2 - U1)
    let r := c.reduce (S2 - S1)
    if H = 0 then
      if r = 0 then lhs.mult2
      else PointGFp.zero c
    else
      let U2a := c.monty_sqr H
      let S2a := c.monty_mult U2a H
      let U2b := c.monty_mult U1 U2a
      let x := c.reduce (c.monty_sqr r - S2a - U2b * 2)
      let U2c := if U2b - x < 0 then U2b - x + p else U2b - x
      let y0 := c.monty_mult r U2c - c.monty_mult S1 S2a
      let y := if y0 < 0 then y0 + p else y0
      let z := c.monty_mult (c.monty_mult lhs.coord_z rhs.coord_z) H
      { lhs with coord_x := x, coord_y := y, coord_z := z }

/-- Bit length with explicit structural fuel (`fuel ≥ n` suffices);
kernel-reducible counterpart of `BigInt::bits()` on a magnitude. -/
def bitsAux : Nat → Nat → Nat
  | 0, _ => 0
  | fuel + 1, n => if n = 0 then 0 else bitsAux fuel (n / 2) + 1

/-- `BigInt::bits()` of a magnitude (external collaborator): the binary
length, with `bits 0 = 0`. -/
def bitLength (n : Nat) : Nat := bitsAux n n

/-- The 2-bit-window loop of `PointGFp::operator*=`: per round, double the
accumulator twice and add `P`, `2P` or `3P` according to the window value
`scalar.get_substring(scalar_bits - i - 2, 2)`; `i` advances by 2 while
`i < scalar_bits - 1`.  The structural `fuel` only bounds the iteration
count: `fuel = scalar_bits` is enough since `i` grows by 2 per round. -/
def mulLoopAux (scalar : Int) (P P2 P3 : PointGFp) (scalar_bits : Nat) :
    Nat → Nat → PointGFp → PointGFp
  | _, 0, H => H
  | i, fuel + 1, H =>
    if i < scalar_bits - 1 then
      let nibble := (scalar.natAbs >>> (scalar_bits - i - 2)) % 4
      let H := (H.mult2).mult2
      let H :=
        if nibble = 3 then H.add P3
        else if nibble = 2 then H.add P2
        else if nibble = 1 then H.add P
        else H
      mulLoopAux scalar P P2 P3 scalar_bits (i + 2) fuel H
    else H

/-- `PointGFp::operator*=`: scalar multiplication.  Scalars of magnitude
at most 2 take the direct fast path; otherwise a fixed 2-bit-window
left-to-right double-and-add over the magnitude, with a final odd-bit
round, negating the base first for negative scalars. -/
def PointGFp.mulScalar (pt : PointGFp) (scalar : Int) : PointGFp :=
  if scalar.natAbs ≤ 2 then
    let value := scalar.natAbs
    if value = 0 then PointGFp.zero pt.curve
    else if value = 1 then
      (if scalar < 0 then pt.negate else pt)
    else
      let d := pt.mult2
      (if scalar < 0 then d.negate else d)
  else
    let P := if scalar < 0 then pt.negate else pt
    let scalar_bits := bitLength scalar.natAbs
    let P2 := P.mult2
    let P3 := P2.add P
    let H := mulLoopAux scalar P P2 P3 scalar_bits 0 scalar_bits
      (PointGFp.zero pt.curve)
    if scalar_bits % 2 = 1 then
      let H := H.mult2
      if scalar.natAbs % 2 = 1 then H.add P else H
    else H

/-- Modelled from the spec: `inverse_mod` from the external number-theory
module: a modular inverse of `n` modulo `p` when one exists (found as the
least witness below `p`), and `0` otherwise. -/
def inverse_mod (n : Int) (p : Nat) : Int :=
  ((((List.range p).find? fun (i : Nat) =>
      (n * (i : Int)) % (p : Int) = 1 % (p : Int)).getD 0 : Nat) : Int)

/-- The non-Montgomery `x` used by affine conversion and the invariant
check: `mod_p.multiply(curve.get_r_inv(), coord_x)`. -/
def PointGFp.deMont_x (pt : PointGFp) : Int :=
  pt.curve.mmul pt.curve.r_inv pt.coord_x

/-- The non-Montgomery `y`: `mod_p.multiply(curve.get_r_inv(), coord_y)`. -/
def PointGFp.deMont_y (pt : PointGFp) : Int :=
  pt.curve.mmul pt.curve.r_inv pt.coord_y

/-- The non-Montgomery `z`: `mod_p.multiply(curve.get_r_inv(), coord_z)`. -/
def PointGFp.deMont_z (pt : PointGFp) : Int :=
  pt.curve.mmul pt.curve.r_inv pt.coord_z

/-- `PointGFp::get_affine_x`: fails on infinity, otherwise divides the
de-Montgomeryized `x` by `z²` via `inverse_mod`. -/
def PointGFp.get_affine_x (pt : PointGFp) : Except BotanErr Int :=
  if pt.is_zero then .error .illegalTransformation
  else
    let c := pt.curve
    let x := pt.deMont_x
    let z := pt.deMont_z
    let z2 := c.msqr z
    .ok (c.mmul x (inverse_mod z2 c.p))

/-- `PointGFp::get_affine_y`: fails on infinity, otherwise divides the
de-Montgomeryized `y` by `z³` via `inverse_mod`. -/
def PointGFp.get_affine_y (pt : PointGFp) : Except BotanErr Int :=
  if pt.is_zero then .error .illegalTransformation
  else
    let c := pt.curve
    let y := pt.deMont_y
    let z := pt.deMont_z
    let z3 := c.mcube z
    .ok (c.mmul y (inverse_mod z3 c.p))

/-- `PointGFp::check_invariants`: silently accepts infinity; otherwise
converts out of the Montgomery domain, checks the affine curve equation
when `z == 1`, and then always checks the homogeneous equation
`y² ≡ x³ + a·x·z⁴ + b·z⁶ (mod p)`, raising `Illegal_Point` on violation. -/
def PointGFp.check_invariants (pt : PointGFp) : Except BotanErr Unit :=
  if pt.is_zero then .ok ()
  else
    let c := pt.curve
    let x := pt.deMont_x
    let y := pt.deMont_y
    let z := pt.deMont_z
    let y2 := c.msqr y
    let x3 := c.mcube x
    let ax := c.mmul x c.a
    if z = 1 ∧ c.reduce (x3 + ax + c.b) ≠ y2 then .error .illegalPoint
    else
      let z2 := c.msqr z
      let z3 := c.mmul z z2
      let ax_z4 := c.mmul (c.mmul z3 z) ax
      let b_z6 := c.mmul c.b (c.msqr z3)
      if y2 ≠ c.reduce (x3 + ax_z4 + b_z6) then .error .illegalPoint
      else .ok ()

/-- `PointGFp::operator==`: unequal curve parameters compare unequal; a
zero left operand compares by the zeroness of the right; otherwise the
affine coordinates are compared (so a zero right operand makes
`get_affine_x` raise `Illegal_Transformation`), with the `&&`
short-circuit of the source. -/
def PointGFp.eq (lhs rhs : PointGFp) : Except BotanErr Bool :=
  if ¬ lhs.curve.paramEq rhs.curve then .ok false
  else if lhs.is_zero then .ok (decide rhs.is_zero)
  else
    match lhs.get_affine_x, rhs.get_affine_x with
    | .error e, _ => .error e
    | .ok _, .error e => .error e
    | .ok ax, .ok bx =>
      if ax ≠ bx then .ok false
      else
        match lhs.get_affine_y, rhs.get_affine_y with
        | .error e, _ => .error e
        | .ok _, .error e => .error e
        | .ok ay, .ok by2 => .ok (decide (ay = by2))

/-- `BigInt::bytes()` (external): `(bits() + 7) / 8`. -/
def bytesOf (n : Nat) : Nat := (bitLength n + 7) / 8

/-- Big-endian base-256 digits of a magnitude, fixed width `n`; the
recursive core of the external `BigInt::encode_1363`. -/
def encBE : Nat → Nat → List Nat
  | _, 0 => []
  | v, n + 1 => encBE (v / 256) n ++ [v % 256]

/-- Modelled from the spec: `BigInt::encode_1363(x, n)` (external): the
fixed-width `n`-byte big-endian encoding of a value that fits. -/
def encode_1363 (x : Int) (n : Nat) : List Nat := encBE x.toNat n

/-- Modelled from the spec: `BigInt::decode` (external): big-endian bytes
to a nonnegative integer. -/
def decodeBE (bytes : List Nat) : Nat :=
  bytes.foldl (fun acc b => 256 * acc + b) 0

/-- `PointGFp::UNCOMPRESSED` (enumerator declared in `point_gfp.h`). -/
def PointGFp.UNCOMPRESSED : Nat := 0

/-- `PointGFp::COMPRESSED` (enumerator declared in `point_gfp.h`). -/
def PointGFp.COMPRESSED : Nat := 1

/-- `PointGFp::HYBRID` (enumerator declared in `point_gfp.h`). -/
def PointGFp.HYBRID : Nat := 2

/-- `EC2OSP`: SEC1 encoding of a point.  Infinity is a single zero byte
for every format; otherwise `0x04 ‖ X ‖ Y`, `(0x02 | parity) ‖ X` or
`(0x06 | parity) ‖ X ‖ Y` over the `p`-width affine coordinates; an
unknown format raises `Invalid_Argument`. -/
def EC2OSP (point : PointGFp) (format : Nat) : Except BotanErr (List Nat) :=
  if point.is_zero then .ok [0]
  else
    let p_bytes := bytesOf point.curve.p
    match point.get_affine_x, point.get_affine_y with
    | .error e, _ => .error e
    | .ok _, .error e => .error e
    | .ok x, .ok y =>
      let bX := encode_1363 x p_bytes
      let bY := encode_1363 y p_bytes
      if format = PointGFp.UNCOMPRESSED then
        .ok (4 :: (bX ++ bY))
      else if format = PointGFp.COMPRESSED then
        -- result[0] = 2, then |= 1 when y.get_bit(0)
        .ok ((if y % 2 = 1 then 3 else 2) :: bX)
      else if format = PointGFp.HYBRID then
        -- result[0] = 6, then |= 1 when y.get_bit(0)
        .ok ((if y % 2 = 1 then 7 else 6) :: (bX ++ bY))
      else .error .invalidArgument

/-- Modelled from the spec: `ressol` from the external number-theory
module (`modular_sqrt(a, p)`): a square root of `g` modulo `p` (found as
the least root below `p`) when one exists, and a negative value when no
root exists. -/
def ressol (g : Int) (p : Nat) : Int :=
  match (List.range p).find? (fun (z : Nat) =>
      ((z : Int) * (z : Int)) % (p : Int) = g % (p : Int)) with
  | some z => (z : Int)
  | none => -1

/-- `decompress_point`: evaluate `x³ + a·x + b mod p`, take a modular
square root (failing with `Illegal_Point` when there is none), and flip
the root to `p - z` when its parity disagrees with the requested one. -/
def decompress_point (yMod2 : Bool) (x : Int) (curve : CurveGFp) : Except BotanErr Int :=
  let xpow3 := x * x * x
  let g := (curve.a * x + xpow3 + curve.b) % (curve.p : Int)
  let z := ressol g curve.p
  if z < 0 then .error .illegalPoint
  else if decide (z % 2 = 1) ≠ yMod2 then .ok ((curve.p : Int) - z)
  else .ok z

/-- `OS2ECP`: SEC1 decoding.  Length at most one yields infinity; tags
2/3 decompress, 4 splits the payload, 6/7 split and cross-check against
the recomputed root, anything else raises `Invalid_Argument`; the
constructed point always passes through `check_invariants`. -/
def OS2ECP (data : List Nat) (curve : CurveGFp) : Except BotanErr PointGFp :=
  match data with
  | [] => .ok (PointGFp.zero curve)
  | [_] => .ok (PointGFp.zero curve)
  | pc :: rest =>
    -- the common tail: construct from affine coordinates, then validate
    let build : Int → Int → Except BotanErr PointGFp := fun x y =>
      let result := PointGFp.fromAffine curve x y
      match result.check_invariants with
      | .error e => .error e
      | .ok _ => .ok result
    if pc = 2 ∨ pc = 3 then
      let x : Int := (decodeBE rest : Nat)
      match decompress_point (decide (pc % 2 = 1)) x curve with
      | .error e => .error e
      | .ok y => build x y
    else if pc = 4 then
      let l := rest.length / 2
      build ((decodeBE (rest.take l) : Nat) : Int) ((decodeBE ((rest.drop l).take l) : Nat) : Int)
    else if pc = 6 ∨ pc = 7 then
      let l := rest.length / 2
      let x : Int := (decodeBE (rest.take l) : Nat)
      let y : Int := (decodeBE ((rest.drop l).take l) : Nat)
      match decompress_point (decide (pc % 2 = 1)) x curve with
      | .error e => .error e
      | .ok yd => if yd ≠ y then .error .illegalPoint else build x y
    else .error .invalidArgument

/-- A textbook toy curve: `p = 23`, `a = 1`, `b = 1`, with the trivial
Montgomery radix `R = 1` (a legitimate domain-parameter choice for the
external `CurveGFp`, which keeps concrete evaluation readable). -/
def toyCurve : CurveGFp :=
  { p := 23, a := 1, b := 1, r := 1, r_inv := 1, a_r := 1 }

/-- The spec's homogeneous curve equation
`y² ≡ x³ + a·x·z⁴ + b·z⁶ (mod p)` on the de-Montgomeryized coordinates
of a point, stated over `ZMod p`. -/
def homogEq (pt : PointGFp) : Prop :=
  (pt.deMont_y : ZMod pt.curve.p) ^ 2 =
    (pt.deMont_x : ZMod pt.curve.p) ^ 3 +
      (pt.curve.a : ZMod pt.curve.p) * (pt.deMont_x : ZMod pt.curve.p) *
        (pt.deMont_z : ZMod pt.curve.p) ^ 4 +
      (pt.curve.b : ZMod pt.curve.p) * (pt.deMont_z : ZMod pt.curve.p) ^ 6

instance (pt : PointGFp) : Decidable (homogEq pt) := by
  unfold homogEq; infer_instance

/-- The toy curve satisfies the well-formedness contract. -/
theorem toyCurve_wf : toyCurve.WF :=
  ⟨by norm_num [toyCurve], by decide, by decide⟩

/-! ### Bridging between the `Int`-with-`emod` computations of the source
and `ZMod p`, where the algebraic reasoning happens. -/

theorem intCast_emod_zmod {p : Nat} (x : Int) :
    (((x % (p : Int)) : Int) : ZMod p) = (x : ZMod p) :=
  ZMod.intCast_mod x p

theorem emod_eq_emod_iff_cast {p : Nat} {a b : Int} :
    a % (p : Int) = b % (p : Int) ↔ (a : ZMod p) = (b : ZMod p) :=
  (ZMod.intCast_eq_intCast_iff' a b p).symm

theorem emod_eq_of_cast_eq {p : Nat} {a b : Int} (hb0 : 0 ≤ b) (hbp : b < (p : Int))
    (h : (a : ZMod p) = (b : ZMod p)) : a % (p : Int) = b := by
  have h2 := emod_eq_emod_iff_cast.mpr h
  rwa [Int.emod_eq_of_lt hb0 hbp] at h2

theorem reduced_eq_of_cast_eq {p : Nat} {a b : Int}
    (ha0 : 0 ≤ a) (hap : a < (p : Int)) (hb0 : 0 ≤ b) (hbp : b < (p : Int))
    (h : (a : ZMod p) = (b : ZMod p)) : a = b := by
  have h2 := emod_eq_of_cast_eq hb0 hbp h
  rwa [Int.emod_eq_of_lt ha0 hap] at h2

theorem cast_eq_zero_iff_dvd {p : Nat} (x : Int) :
    (x : ZMod p) = 0 ↔ (p : Int) ∣ x :=
  ZMod.intCast_zmod_eq_zero_iff_dvd x p

/-! ### Contracts of the modelled number-theory externals -/

theorem inverse_mod_bounds {p : Nat} (hp : 0 < p) (n : Int) :
    0 ≤ inverse_mod n p ∧ inverse_mod n p < (p : Int) := by
  unfold inverse_mod
  cases hfind : (List.range p).find? fun (i : Nat) =>
      (n * (i : Int)) % (p : Int) = 1 % (p : Int) with
  | none => simpa using hp
  | some j =>
    have hmem := List.mem_range.mp (List.mem_of_find?_eq_some hfind)
    simp only [hfind, Option.getD_some]
    exact ⟨Int.ofNat_nonneg j, by exact_mod_cast hmem⟩

theorem inverse_mod_spec {p : Nat} (hp : Nat.Prime p) (n : Int)
    (hn : (n : ZMod p) ≠ 0) :
    (n * inverse_mod n p) % (p : Int) = 1 % (p : Int) := by
  haveI : Fact p.Prime := ⟨hp⟩
  haveI : NeZero p := ⟨hp.ne_zero⟩
  set i : Nat := ((n : ZMod p)⁻¹).val with hi
  have hiCast : ((i : Nat) : ZMod p) = (n : ZMod p)⁻¹ := by
    rw [hi]; exact ZMod.natCast_rightInverse _
  have hiProp : (n * (i : Int)) % (p : Int) = 1 % (p : Int) := by
    apply emod_eq_emod_iff_cast.mpr
    push_cast
    rw [hiCast, mul_inv_cancel₀ hn]
  cases hfind : (List.range p).find? fun (i : Nat) =>
      (n * (i : Int)) % (p : Int) = 1 % (p : Int) with
  | none =>
    exfalso
    have hmem : i ∈ List.range p := List.mem_range.mpr (ZMod.val_lt _)
    have := List.find?_eq_none.mp hfind i hmem
    simp only [decide_eq_true_eq] at this
    exact this hiProp
  | some j =>
    have hj := List.find?_some hfind
    simp only [decide_eq_true_eq] at hj
    unfold inverse_mod
    rw [hfind]
    simpa using hj

theorem ressol_neg_of_no_root {p : Nat} (g : Int)
    (h : ∀ y : Int, 0 ≤ y → y < (p : Int) → (y * y) % (p : Int) ≠ g % (p : Int)) :
    ressol g p = -1 := by
  unfold ressol
  cases hfind : (List.range p).find? fun (z : Nat) =>
      ((z : Int) * (z : Int)) % (p : Int) = g % (p : Int) with
  | none => rfl
  | some j =>
    exfalso
    have hj := List.find?_some hfind
    simp only [decide_eq_true_eq] at hj
    have hmem := List.mem_range.mp (List.mem_of_find?_eq_some hfind)
    exact h (j : Int) (Int.ofNat_nonneg j) (by exact_mod_cast hmem) hj

theorem ressol_spec_of_root {p : Nat} (g y : Int)
    (hy0 : 0 ≤ y) (hyp : y < (p : Int)) (hy : (y * y) % (p : Int) = g % (p : Int)) :
    0 ≤ ressol g p ∧ ressol g p < (p : Int) ∧
      (ressol g p * ressol g p) % (p : Int) = g % (p : Int) := by
  unfold ressol
  cases hfind : (List.range p).find? fun (z : Nat) =>
      ((z : Int) * (z : Int)) % (p : Int) = g % (p : Int) with
  | none =>
    exfalso
    have hmem : y.toNat ∈ List.range p := by
      refine List.mem_range.mpr ?_
      omega
    have hnone := List.find?_eq_none.mp hfind y.toNat hmem
    simp only [decide_eq_true_eq] at hnone
    apply hnone
    rwa [Int.toNat_of_nonneg hy0]
  | some j =>
    have hj := List.find?_some hfind
    simp only [decide_eq_true_eq] at hj
    have hmem := List.mem_range.mp (List.mem_of_find?_eq_some hfind)
    have hjp : ((j : Nat) : Int) < (p : Int) := by exact_mod_cast hmem
    exact ⟨Int.ofNat_nonneg j, hjp, hj⟩

/-! ### The invariant check as a single test of the homogeneous equation -/

theorem check_cond2_iff (pt : PointGFp) :
    (pt.curve.msqr pt.deMont_y =
      pt.curve.reduce (pt.curve.mcube pt.deMont_x +
        pt.curve.mmul (pt.curve.mmul (pt.curve.mmul pt.deMont_z (pt.curve.msqr pt.deMont_z)) pt.deMont_z)
          (pt.curve.mmul pt.deMont_x pt.curve.a) +
        pt.curve.mmul pt.curve.b (pt.curve.msqr (pt.curve.mmul pt.deMont_z (pt.curve.msqr pt.deMont_z))))) ↔
    homogEq pt := by
  unfold CurveGFp.msqr CurveGFp.mcube CurveGFp.mmul CurveGFp.reduce homogEq
  rw [emod_eq_emod_iff_cast]
  simp only [Int.cast_add, Int.cast_mul, intCast_emod_zmod]
  constructor <;> intro h <;> linear_combination h

theorem check_cond1_iff (pt : PointGFp) (hz1 : pt.deMont_z = 1) :
    (pt.curve.reduce (pt.curve.mcube pt.deMont_x + pt.curve.mmul pt.deMont_x pt.curve.a + pt.curve.b) =
      pt.curve.msqr pt.deMont_y) ↔ homogEq pt := by
  unfold CurveGFp.msqr CurveGFp.mcube CurveGFp.mmul CurveGFp.reduce homogEq
  rw [emod_eq_emod_iff_cast, hz1]
  simp only [Int.cast_add, Int.cast_mul, Int.cast_one, intCast_emod_zmod, one_pow, mul_one]
  constructor <;> intro h <;> linear_combination -h

/-- For a finite point, `check_invariants` succeeds exactly when the
homogeneous curve equation holds on the de-Montgomeryized coordinates. -/
theorem check_invariants_char (pt : PointGFp) (hnz : ¬ pt.is_zero) :
    pt.check_invariants =
      if homogEq pt then Except.ok () else Except.error BotanErr.illegalPoint := by
  unfold PointGFp.check_invariants
  rw [if_neg hnz]
  simp only
  split_ifs with c1 c2 c3 c4 c5
  · exact absurd ((check_cond1_iff pt c1.1).mpr c2) c1.2
  · rfl
  · exact c3 ((check_cond2_iff pt).mpr c4)
  · rfl
  · rfl
  · exact c5 ((check_cond2_iff pt).mp (not_ne_iff.mp c3))

/-! ### Helper lemmas shared across the claims -/

theorem paramEq_refl (c : CurveGFp) : c.paramEq c := ⟨rfl, rfl, rfl⟩

theorem get_affine_x_ok (pt : PointGFp) (h : ¬ pt.is_zero) :
    pt.get_affine_x =
      .ok (pt.curve.mmul pt.deMont_x (inverse_mod (pt.curve.msqr pt.deMont_z) pt.curve.p)) := by
  unfold PointGFp.get_affine_x
  rw [if_neg h]

theorem get_affine_y_ok (pt : PointGFp) (h : ¬ pt.is_zero) :
    pt.get_affine_y =
      .ok (pt.curve.mmul pt.deMont_y (inverse_mod (pt.curve.mcube pt.deMont_z) pt.curve.p)) := by
  unfold PointGFp.get_affine_y
  rw [if_neg h]

theorem eq_self_ok_true (pt : PointGFp) : pt.eq pt = .ok true := by
  unfold PointGFp.eq
  rw [if_neg (not_not_intro (paramEq_refl pt.curve))]
  by_cases hz : pt.is_zero
  · simp [hz]
  · rw [if_neg hz, get_affine_x_ok pt hz, get_affine_y_ok pt hz]
    simp

theorem add_self_eq_mult2 (P : PointGFp) : P.add P = P.mult2 := by
  by_cases hz : P.is_zero
  · unfold PointGFp.add PointGFp.mult2
    rw [if_pos hz, if_pos hz]
  · unfold PointGFp.add
    rw [if_neg hz, if_neg hz]
    simp [CurveGFp.reduce]

theorem r_emod_ne_zero {c : CurveGFp} (hwf : c.WF) : c.r % (c.p : Int) ≠ 0 := by
  intro h
  haveI : Fact c.p.Prime := ⟨hwf.p_prime⟩
  have hr : ((c.r : Int) : ZMod c.p) = 0 := by
    rw [← intCast_emod_zmod (p := c.p) c.r, h, Int.cast_zero]
  have h1 : ((c.r * c.r_inv : Int) : ZMod c.p) = 1 := by
    rw [← intCast_emod_zmod (p := c.p), hwf.rr, Int.cast_one]
  rw [Int.cast_mul, hr, zero_mul] at h1
  exact zero_ne_one h1

theorem fromAffine_ne_zero {c : CurveGFp} (hwf : c.WF) (x y : Int) :
    ¬ (PointGFp.fromAffine c x y).is_zero :=
  r_emod_ne_zero hwf

/-! ### C2: the invariant check validates the homogeneous curve equation -/

/-- C2: `check_invariants` is a no-op for the point at infinity; for a
finite point it succeeds exactly when the de-Montgomeryized coordinates
satisfy `y² ≡ x³ + a·x·z⁴ + b·z⁶ (mod p)`, and fails with
`Illegal_Point` exactly when they do not. -/
theorem c2_check_invariants_spec (pt : PointGFp) :
    (pt.is_zero → pt.check_invariants = Except.ok ()) ∧
    (¬ pt.is_zero →
      (pt.check_invariants = Except.ok () ↔ homogEq pt) ∧
      (pt.check_invariants = Except.error BotanErr.illegalPoint ↔ ¬ homogEq pt)) := by
  constructor
  · intro h
    unfold PointGFp.check_invariants
    rw [if_pos h]
  · intro h
    rw [check_invariants_char pt h]
    by_cases hh : homogEq pt <;> simp [hh]

/-- Witness for C2 at the toy-curve point `(3, 10)`. -/
theorem c2_witness :
    ((PointGFp.fromAffine toyCurve 3 10).check_invariants = Except.ok () ↔
      homogEq (PointGFp.fromAffine toyCurve 3 10)) ∧
    ((PointGFp.fromAffine toyCurve 3 10).check_invariants = Except.error BotanErr.illegalPoint ↔
      ¬ homogEq (PointGFp.fromAffine toyCurve 3 10)) :=
  (c2_check_invariants_spec (PointGFp.fromAffine toyCurve 3 10)).2 (by decide)

/-! ### C3: contrary to the claim, the projective equation is always
validated for finite points, also when the de-Montgomeryized `z ≠ 1` -/

/-- C3 counterexample: a finite point with de-Montgomeryized `z = 2 ≠ 1`
violating the projective equation is rejected by `check_invariants` with
`Illegal_Point` — so the check does validate the general projective
equation for `z ≠ 1`, contrary to the claim. -/
theorem c3_counterexample :
    ¬ (PointGFp.mk toyCurve 1 1 2).is_zero ∧
    (PointGFp.mk toyCurve 1 1 2).deMont_z = 2 ∧
    ¬ homogEq (PointGFp.mk toyCurve 1 1 2) ∧
    (PointGFp.mk toyCurve 1 1 2).check_invariants = Except.error BotanErr.illegalPoint := by
  refine ⟨by decide, by decide, by decide, by decide⟩

/-- C3 amended: for every finite point whose de-Montgomeryized `z` is not
1, the invariant check still decides exactly the general projective curve
equation (the simplified affine test is only an additional check taken
when `z = 1`, where the two equations coincide). -/
theorem c3_amended_projective_checked (pt : PointGFp) (hnz : ¬ pt.is_zero)
    (_hz1 : pt.deMont_z ≠ 1) :
    (pt.check_invariants = Except.ok () ↔ homogEq pt) ∧
    (pt.check_invariants = Except.error BotanErr.illegalPoint ↔ ¬ homogEq pt) := by
  rw [check_invariants_char pt hnz]
  by_cases hh : homogEq pt <;> simp [hh]

/-- Witness for the amended C3 at the off-curve point `(1, 1, 2)`. -/
theorem c3_witness :
    ((PointGFp.mk toyCurve 1 1 2).check_invariants = Except.ok () ↔
      homogEq (PointGFp.mk toyCurve 1 1 2)) ∧
    ((PointGFp.mk toyCurve 1 1 2).check_invariants = Except.error BotanErr.illegalPoint ↔
      ¬ homogEq (PointGFp.mk toyCurve 1 1 2)) :=
  c3_amended_projective_checked (PointGFp.mk toyCurve 1 1 2) (by decide) (by decide)

/-! ### C7: doubling consistency -/

/-- C7: `P + P` equals `P.double()` (up to the point equality operator),
and when both operands of `add` are finite with `H = 0` and `r = 0` the
addition delegates to the doubling routine. -/
theorem c7_double_add_consistency (P : PointGFp) :
    (P.add P).eq P.mult2 = .ok true ∧
    (∀ Q : PointGFp, ¬ P.is_zero → ¬ Q.is_zero → P.addH Q = 0 → P.addR Q = 0 →
      P.add Q = P.mult2) := by
  constructor
  · rw [add_self_eq_mult2, eq_self_ok_true]
  · intro Q h1 h2 hH hR
    unfold PointGFp.add
    rw [if_neg h1, if_neg h2]
    unfold PointGFp.addH at hH
    unfold PointGFp.addR at hR
    simp only at hH hR ⊢
    simp [hH, hR]

/-- Witness for C7 with `P = Q = (3, 10)` on the toy curve. -/
theorem c7_witness :
    (PointGFp.fromAffine toyCurve 3 10).add (PointGFp.fromAffine toyCurve 3 10) =
      (PointGFp.fromAffine toyCurve 3 10).mult2 :=
  (c7_double_add_consistency (PointGFp.fromAffine toyCurve 3 10)).2
    (PointGFp.fromAffine toyCurve 3 10) (by decide) (by decide) (by decide) (by decide)

/-! ### C8: the small-scalar fast path -/

/-- C8: scalars of magnitude at most 2 are handled by the fast path of
`operator*=`: `0·P` is infinity, `1·P = P`, `(−1)·P = −P`, `2·P` is the
doubling and `(−2)·P` its negation, without the windowed loop. -/
theorem c8_small_scalar_fast_path (P : PointGFp) :
    P.mulScalar 0 = PointGFp.zero P.curve ∧
    P.mulScalar 1 = P ∧
    P.mulScalar (-1) = P.negate ∧
    P.mulScalar 2 = P.mult2 ∧
    P.mulScalar (-2) = P.mult2.negate := by
  refine ⟨?_, ?_, ?_, ?_, ?_⟩ <;> simp [PointGFp.mulScalar]

/-! ### C9: the point at infinity is an additive identity -/

/-- C9: for every point `P`, `P + infinity == P` and `infinity + P == P`
under the point equality operator. -/
theorem c9_identity (P : PointGFp) :
    ((PointGFp.zero P.curve).add P).eq P = .ok true ∧
    (P.add (PointGFp.zero P.curve)).eq P = .ok true := by
  constructor
  · have h1 : (PointGFp.zero P.curve).add P = P := by
      unfold PointGFp.add
      rw [if_pos (show (PointGFp.zero P.curve).is_zero from rfl)]
      exact rfl
    rw [h1, eq_self_ok_true]
  · by_cases hz : P.is_zero
    · have h1 : P.add (PointGFp.zero P.curve) = PointGFp.zero P.curve := by
        unfold PointGFp.add
        rw [if_pos hz]
        exact rfl
      rw [h1]
      unfold PointGFp.eq
      rw [if_neg (not_not_intro
        (show (PointGFp.zero P.curve).curve.paramEq P.curve from paramEq_refl P.curve))]
      rw [if_pos (show (PointGFp.zero P.curve).is_zero from rfl)]
      simp [hz]
    · have h1 : P.add (PointGFp.zero P.curve) = P := by
        unfold PointGFp.add
        rw [if_neg hz, if_pos (show (PointGFp.zero P.curve).is_zero from rfl)]
      rw [h1, eq_self_ok_true]

/-! ### C10: the from-affine constructor performs no validation -/

/-- C10: `PointGFp(curve, x, y)` is total for arbitrary integers (also
unreduced or off-curve ones): the stored coordinates are `x·R mod p`,
`y·R mod p` and `R mod p`, and on a well-formed curve the result is
always a finite point. -/
theorem c10_from_affine_constructor (c : CurveGFp) (x y : Int) :
    (PointGFp.fromAffine c x y).coord_x = (c.r * x) % (c.p : Int) ∧
    (PointGFp.fromAffine c x y).coord_y = (c.r * y) % (c.p : Int) ∧
    (PointGFp.fromAffine c x y).coord_z = c.r % (c.p : Int) ∧
    (c.WF → ¬ (PointGFp.fromAffine c x y).is_zero) := by
  exact ⟨rfl, rfl, rfl, fun hwf => fromAffine_ne_zero hwf x y⟩

/-- Witness for C10 with the unreduced off-curve input `(30, −5)`. -/
theorem c10_witness :
    (PointGFp.fromAffine toyCurve 30 (-5)).coord_x = (toyCurve.r * 30) % (toyCurve.p : Int) ∧
    (PointGFp.fromAffine toyCurve 30 (-5)).coord_y = (toyCurve.r * (-5)) % (toyCurve.p : Int) ∧
    (PointGFp.fromAffine toyCurve 30 (-5)).coord_z = toyCurve.r % (toyCurve.p : Int) ∧
    ¬ (PointGFp.fromAffine toyCurve 30 (-5)).is_zero := by
  have h := c10_from_affine_constructor toyCurve 30 (-5)
  exact ⟨h.1, h.2.1, h.2.2.1, h.2.2.2 toyCurve_wf⟩

/-! ### C1: the point equality operator -/

/-- C1 counterexample: comparing a finite point (left) with the point at
infinity (right) on the same curve raises `Illegal_Transformation`
(from `get_affine_x` on the infinity argument) instead of returning
`false` as the claim states. -/
theorem c1_counterexample :
    (PointGFp.fromAffine toyCurve 7 12).eq (PointGFp.zero toyCurve) =
      Except.error BotanErr.illegalTransformation := by
  decide

/-- C1 amended: equality compares the curve domain parameters first, a
zero left operand compares by the zeroness of the right one, two finite
points compare by their affine coordinates — but a finite left operand
compared against an infinity right operand raises
`Illegal_Transformation` rather than returning `false`. -/
theorem c1_eq_characterization (lhs rhs : PointGFp) :
    (¬ lhs.curve.paramEq rhs.curve → lhs.eq rhs = .ok false) ∧
    (lhs.curve.paramEq rhs.curve → lhs.is_zero → lhs.eq rhs = .ok (decide rhs.is_zero)) ∧
    (lhs.curve.paramEq rhs.curve → ¬ lhs.is_zero → rhs.is_zero →
      lhs.eq rhs = .error .illegalTransformation) ∧
    (lhs.curve.paramEq rhs.curve → ¬ lhs.is_zero → ¬ rhs.is_zero →
      ∀ vx wx vy wy : Int, lhs.get_affine_x = .ok vx → rhs.get_affine_x = .ok wx →
        lhs.get_affine_y = .ok vy → rhs.get_affine_y = .ok wy →
        lhs.eq rhs = .ok (decide (vx = wx ∧ vy = wy))) := by
  refine ⟨?_, ?_, ?_, ?_⟩
  · intro h
    unfold PointGFp.eq
    rw [if_pos h]
  · intro hpe hz
    unfold PointGFp.eq
    rw [if_neg (not_not_intro hpe), if_pos hz]
  · intro hpe h1 h2
    unfold PointGFp.eq
    rw [if_neg (not_not_intro hpe), if_neg h1, get_affine_x_ok lhs h1]
    have hx : rhs.get_affine_x = .error .illegalTransformation := by
      unfold PointGFp.get_affine_x
      rw [if_pos h2]
    rw [hx]
  · intro hpe h1 h2 vx wx vy wy hvx hwx hvy hwy
    rw [get_affine_x_ok lhs h1] at hvx
    rw [get_affine_x_ok rhs h2] at hwx
    rw [get_affine_y_ok lhs h1] at hvy
    rw [get_affine_y_ok rhs h2] at hwy
    rw [Except.ok.injEq] at hvx hwx hvy hwy
    unfold PointGFp.eq
    rw [if_neg (not_not_intro hpe), if_neg h1, get_affine_x_ok lhs h1, get_affine_x_ok rhs h2,
      get_affine_y_ok lhs h1, get_affine_y_ok rhs h2]
    rw [hvx, hwx, hvy, hwy]
    by_cases hx : vx = wx
    · simp [hx]
    · simp [hx]

/-- Witness for the amended C1: finite-vs-infinity raises, applied at
`(3, 10)` against infinity on the toy curve. -/
theorem c1_witness :
    (PointGFp.fromAffine toyCurve 3 10).eq (PointGFp.zero toyCurve) =
      Except.error BotanErr.illegalTransformation :=
  (c1_eq_characterization (PointGFp.fromAffine toyCurve 3 10) (PointGFp.zero toyCurve)).2.2.1
    (by decide) (by decide) (by decide)

/-! ### Byte-string codec lemmas -/

theorem encBE_length (v n : Nat) : (encBE v n).length = n := by
  induction n generalizing v with
  | zero => rfl
  | succ n ih => simp [encBE, ih]

theorem decodeBE_append_singleton (l : List Nat) (b : Nat) :
    decodeBE (l ++ [b]) = 256 * decodeBE l + b := by
  unfold decodeBE
  rw [List.foldl_append]
  rfl

theorem decodeBE_encBE (v n : Nat) (h : v < 256 ^ n) : decodeBE (encBE v n) = v := by
  induction n generalizing v with
  | zero =>
    interval_cases v
    rfl
  | succ n ih =>
    rw [encBE, decodeBE_append_singleton, ih]
    · omega
    · have h2 : 256 ^ (n + 1) = 256 * 256 ^ n := by ring
      rw [h2] at h
      exact Nat.div_lt_of_lt_mul h

theorem lt_two_pow_bitsAux (fuel n : Nat) (h : n ≤ fuel) : n < 2 ^ bitsAux fuel n := by
  induction fuel generalizing n with
  | zero =>
    simp [bitsAux]
    omega
  | succ fuel ih =>
    by_cases h0 : n = 0
    · simp [bitsAux, h0]
    · rw [bitsAux, if_neg h0]
      have hrec := ih (n / 2) (by omega)
      rw [pow_succ]
      omega

theorem lt_two_pow_bitLength (n : Nat) : n < 2 ^ bitLength n :=
  lt_two_pow_bitsAux n n le_rfl

theorem lt_base256_bytesOf (n : Nat) : n < 256 ^ bytesOf n := by
  have h1 := lt_two_pow_bitLength n
  have h2 : bitLength n ≤ 8 * bytesOf n := by
    unfold bytesOf
    omega
  calc n < 2 ^ bitLength n := h1
    _ ≤ 2 ^ (8 * bytesOf n) := Nat.pow_le_pow_right (by norm_num) h2
    _ = 256 ^ bytesOf n := by
      rw [pow_mul]
      norm_num

theorem bytesOf_pos (n : Nat) (h : 0 < n) : 0 < bytesOf n := by
  by_contra hb
  have := lt_base256_bytesOf n
  simp at hb
  rw [hb] at this
  simp at this
  omega

/-! ### Montgomery-domain and affine-conversion lemmas -/

theorem deMont_x_cast (pt : PointGFp) :
    ((pt.deMont_x : Int) : ZMod pt.curve.p) =
      (pt.curve.r_inv : ZMod pt.curve.p) * (pt.coord_x : ZMod pt.curve.p) := by
  unfold PointGFp.deMont_x CurveGFp.mmul
  rw [intCast_emod_zmod, Int.cast_mul]

theorem deMont_y_cast (pt : PointGFp) :
    ((pt.deMont_y : Int) : ZMod pt.curve.p) =
      (pt.curve.r_inv : ZMod pt.curve.p) * (pt.coord_y : ZMod pt.curve.p) := by
  unfold PointGFp.deMont_y CurveGFp.mmul
  rw [intCast_emod_zmod, Int.cast_mul]

theorem deMont_z_cast (pt : PointGFp) :
    ((pt.deMont_z : Int) : ZMod pt.curve.p) =
      (pt.curve.r_inv : ZMod pt.curve.p) * (pt.coord_z : ZMod pt.curve.p) := by
  unfold PointGFp.deMont_z CurveGFp.mmul
  rw [intCast_emod_zmod, Int.cast_mul]

theorem rr_cast {c : CurveGFp} (hwf : c.WF) :
    (c.r : ZMod c.p) * (c.r_inv : ZMod c.p) = 1 := by
  have h1 : ((c.r * c.r_inv : Int) : ZMod c.p) = 1 := by
    rw [← intCast_emod_zmod (p := c.p), hwf.rr, Int.cast_one]
  rwa [Int.cast_mul] at h1

theorem one_lt_p {c : CurveGFp} (hwf : c.WF) : 1 < c.p := hwf.p_prime.one_lt

-- the de-Montgomeryized z of a from-affine point is exactly 1
theorem deMont_z_fromAffine {c : CurveGFp} (hwf : c.WF) (x y : Int) :
    (PointGFp.fromAffine c x y).deMont_z = 1 := by
  have hb : (0 : Int) ≤ 1 := by norm_num
  have hbp : (1 : Int) < (c.p : Int) := by exact_mod_cast one_lt_p hwf
  have hcast : (((PointGFp.fromAffine c x y).deMont_z : Int) : ZMod c.p) = ((1 : Int) : ZMod c.p) := by
    rw [deMont_z_cast]
    show (c.r_inv : ZMod c.p) * (((c.reduce c.r : Int) : ZMod c.p)) = _
    unfold CurveGFp.reduce
    rw [intCast_emod_zmod, Int.cast_one, mul_comm]
    exact rr_cast hwf
  have h0 : 0 ≤ (PointGFp.fromAffine c x y).deMont_z := by
    unfold PointGFp.deMont_z CurveGFp.mmul
    apply Int.emod_nonneg
    exact_mod_cast (by omega : c.p ≠ 0)
  have hlt : (PointGFp.fromAffine c x y).deMont_z < (c.p : Int) := by
    unfold PointGFp.deMont_z CurveGFp.mmul
    apply Int.emod_lt_of_pos
    exact_mod_cast (by omega : 0 < c.p)
  exact reduced_eq_of_cast_eq h0 hlt hb hbp hcast

-- cast of the modelled inverse: a true field inverse for invertible inputs
theorem inverse_mod_cast {p : Nat} (hp : Nat.Prime p) (n : Int)
    (hn : (n : ZMod p) ≠ 0) :
    ((inverse_mod n p : Int) : ZMod p) = (n : ZMod p)⁻¹ := by
  haveI : Fact p.Prime := ⟨hp⟩
  have h := inverse_mod_spec hp n hn
  have hcast : (n : ZMod p) * ((inverse_mod n p : Int) : ZMod p) = 1 := by
    have h2 := emod_eq_emod_iff_cast.mp h
    rw [Int.cast_mul] at h2
    rwa [Int.cast_one] at h2
  exact (inv_eq_of_mul_eq_one_right hcast).symm

-- general affine-x: for any finite point with invertible de-Montgomery z
theorem get_affine_x_spec (pt : PointGFp) (hwf : pt.curve.WF) (hnz : ¬ pt.is_zero)
    (hz : ((pt.deMont_z : Int) : ZMod pt.curve.p) ≠ 0) :
    ∃ X : Int, pt.get_affine_x = .ok X ∧ 0 ≤ X ∧ X < (pt.curve.p : Int) ∧
      (X : ZMod pt.curve.p) =
        (pt.deMont_x : ZMod pt.curve.p) * ((pt.deMont_z : ZMod pt.curve.p) ^ 2)⁻¹ := by
  haveI : Fact pt.curve.p.Prime := ⟨hwf.p_prime⟩
  have hp0 : (0 : Int) < (pt.curve.p : Int) := by exact_mod_cast hwf.p_prime.pos
  refine ⟨_, get_affine_x_ok pt hnz, ?_, ?_, ?_⟩
  · exact Int.emod_nonneg _ (by omega)
  · exact Int.emod_lt_of_pos _ hp0
  · show (((pt.deMont_x * inverse_mod (pt.curve.msqr pt.deMont_z) pt.curve.p) % (pt.curve.p : Int) : Int) : ZMod pt.curve.p) = _
    rw [intCast_emod_zmod, Int.cast_mul]
    have hz2 : ((pt.curve.msqr pt.deMont_z : Int) : ZMod pt.curve.p) =
        (pt.deMont_z : ZMod pt.curve.p) ^ 2 := by
      unfold CurveGFp.msqr
      rw [intCast_emod_zmod, Int.cast_mul]
      ring
    have hz2ne : ((pt.curve.msqr pt.deMont_z : Int) : ZMod pt.curve.p) ≠ 0 := by
      rw [hz2]
      exact pow_ne_zero 2 hz
    rw [inverse_mod_cast hwf.p_prime _ hz2ne, hz2]

theorem get_affine_y_spec (pt : PointGFp) (hwf : pt.curve.WF) (hnz : ¬ pt.is_zero)
    (hz : ((pt.deMont_z : Int) : ZMod pt.curve.p) ≠ 0) :
    ∃ Y : Int, pt.get_affine_y = .ok Y ∧ 0 ≤ Y ∧ Y < (pt.curve.p : Int) ∧
      (Y : ZMod pt.curve.p) =
        (pt.deMont_y : ZMod pt.curve.p) * ((pt.deMont_z : ZMod pt.curve.p) ^ 3)⁻¹ := by
  haveI : Fact pt.curve.p.Prime := ⟨hwf.p_prime⟩
  have hp0 : (0 : Int) < (pt.curve.p : Int) := by exact_mod_cast hwf.p_prime.pos
  refine ⟨_, get_affine_y_ok pt hnz, ?_, ?_, ?_⟩
  · exact Int.emod_nonneg _ (by omega)
  · exact Int.emod_lt_of_pos _ hp0
  · show (((pt.deMont_y * inverse_mod (pt.curve.mcube pt.deMont_z) pt.curve.p) % (pt.curve.p : Int) : Int) : ZMod pt.curve.p) = _
    rw [intCast_emod_zmod, Int.cast_mul]
    have hz3 : ((pt.curve.mcube pt.deMont_z : Int) : ZMod pt.curve.p) =
        (pt.deMont_z : ZMod pt.curve.p) ^ 3 := by
      unfold CurveGFp.mcube
      rw [intCast_emod_zmod, Int.cast_mul, Int.cast_mul]
      ring
    have hz3ne : ((pt.curve.mcube pt.deMont_z : Int) : ZMod pt.curve.p) ≠ 0 := by
      rw [hz3]
      exact pow_ne_zero 3 hz
    rw [inverse_mod_cast hwf.p_prime _ hz3ne, hz3]

theorem deMont_x_fromAffine_cast {c : CurveGFp} (hwf : c.WF) (x y : Int) :
    (((PointGFp.fromAffine c x y).deMont_x : Int) : ZMod c.p) = (x : ZMod c.p) := by
  rw [deMont_x_cast]
  show (c.r_inv : ZMod c.p) * (((c.mmul c.r x : Int) : ZMod c.p)) = _
  unfold CurveGFp.mmul
  rw [intCast_emod_zmod, Int.cast_mul, ← mul_assoc, mul_comm (c.r_inv : ZMod c.p), rr_cast hwf,
    one_mul]

theorem deMont_y_fromAffine_cast {c : CurveGFp} (hwf : c.WF) (x y : Int) :
    (((PointGFp.fromAffine c x y).deMont_y : Int) : ZMod c.p) = (y : ZMod c.p) := by
  rw [deMont_y_cast]
  show (c.r_inv : ZMod c.p) * (((c.mmul c.r y : Int) : ZMod c.p)) = _
  unfold CurveGFp.mmul
  rw [intCast_emod_zmod, Int.cast_mul, ← mul_assoc, mul_comm (c.r_inv : ZMod c.p), rr_cast hwf,
    one_mul]

theorem homogEq_fromAffine_iff {c : CurveGFp} (hwf : c.WF) (x y : Int) :
    homogEq (PointGFp.fromAffine c x y) ↔
      ((y : ZMod c.p) ^ 2 =
        (x : ZMod c.p) ^ 3 + (c.a : ZMod c.p) * (x : ZMod c.p) + (c.b : ZMod c.p)) := by
  unfold homogEq
  rw [deMont_x_fromAffine_cast hwf, deMont_y_fromAffine_cast hwf, deMont_z_fromAffine hwf]
  norm_num
  exact Iff.rfl

theorem check_invariants_fromAffine {c : CurveGFp} (hwf : c.WF) (x y : Int) :
    (PointGFp.fromAffine c x y).check_invariants =
      if (y : ZMod c.p) ^ 2 =
          (x : ZMod c.p) ^ 3 + (c.a : ZMod c.p) * (x : ZMod c.p) + (c.b : ZMod c.p)
      then Except.ok () else Except.error BotanErr.illegalPoint := by
  rw [check_invariants_char _ (fromAffine_ne_zero hwf x y)]
  exact if_congr (homogEq_fromAffine_iff hwf x y) rfl rfl

theorem deMont_z_fromAffine_cast_ne {c : CurveGFp} (hwf : c.WF) (x y : Int) :
    (((PointGFp.fromAffine c x y).deMont_z : Int) : ZMod c.p) ≠ 0 := by
  rw [deMont_z_fromAffine hwf, Int.cast_one]
  haveI : Fact c.p.Prime := ⟨hwf.p_prime⟩
  exact one_ne_zero

theorem get_affine_x_fromAffine {c : CurveGFp} (hwf : c.WF) (x y : Int) :
    (PointGFp.fromAffine c x y).get_affine_x = .ok (x % (c.p : Int)) := by
  obtain ⟨X, hok, h0, hlt, hcast⟩ :=
    get_affine_x_spec _ hwf (fromAffine_ne_zero hwf x y) (deMont_z_fromAffine_cast_ne hwf x y)
  rw [hok]
  have hp0 : (0 : Int) < (c.p : Int) := by exact_mod_cast hwf.p_prime.pos
  have hX : X = x % (c.p : Int) := by
    apply reduced_eq_of_cast_eq h0 hlt (Int.emod_nonneg _ (by omega)) (Int.emod_lt_of_pos _ hp0)
    rw [hcast, deMont_z_fromAffine hwf, deMont_x_fromAffine_cast hwf, intCast_emod_zmod]
    norm_num
  rw [hX]

theorem get_affine_y_fromAffine {c : CurveGFp} (hwf : c.WF) (x y : Int) :
    (PointGFp.fromAffine c x y).get_affine_y = .ok (y % (c.p : Int)) := by
  obtain ⟨Y, hok, h0, hlt, hcast⟩ :=
    get_affine_y_spec _ hwf (fromAffine_ne_zero hwf x y) (deMont_z_fromAffine_cast_ne hwf x y)
  rw [hok]
  have hp0 : (0 : Int) < (c.p : Int) := by exact_mod_cast hwf.p_prime.pos
  have hY : Y = y % (c.p : Int) := by
    apply reduced_eq_of_cast_eq h0 hlt (Int.emod_nonneg _ (by omega)) (Int.emod_lt_of_pos _ hp0)
    rw [hcast, deMont_z_fromAffine hwf, deMont_y_fromAffine_cast hwf, intCast_emod_zmod]
    norm_num
  rw [hY]

-- a valid finite point's affine coordinates satisfy the affine curve equation
theorem valid_point_spec (P : PointGFp) (hwf : P.curve.WF)
    (hz : ¬ ((P.curve.p : Int) ∣ P.coord_z)) (hchk : P.check_invariants = .ok ()) :
    ∃ X Y : Int, P.get_affine_x = .ok X ∧ P.get_affine_y = .ok Y ∧
      0 ≤ X ∧ X < (P.curve.p : Int) ∧ 0 ≤ Y ∧ Y < (P.curve.p : Int) ∧
      (Y : ZMod P.curve.p) ^ 2 =
        (X : ZMod P.curve.p) ^ 3 + (P.curve.a : ZMod P.curve.p) * (X : ZMod P.curve.p) +
          (P.curve.b : ZMod P.curve.p) := by
  haveI : Fact P.curve.p.Prime := ⟨hwf.p_prime⟩
  have hnz : ¬ P.is_zero := by
    intro h
    exact hz (h ▸ Dvd.intro 0 rfl)
  have hzc : ((P.coord_z : Int) : ZMod P.curve.p) ≠ 0 := by
    intro h
    exact hz ((cast_eq_zero_iff_dvd (p := P.curve.p) P.coord_z).mp h)
  have hrinv : ((P.curve.r_inv : Int) : ZMod P.curve.p) ≠ 0 := by
    intro h
    have h1 := rr_cast hwf
    rw [h, mul_zero] at h1
    exact zero_ne_one h1
  have hdz : ((P.deMont_z : Int) : ZMod P.curve.p) ≠ 0 := by
    rw [deMont_z_cast]
    exact mul_ne_zero hrinv hzc
  obtain ⟨X, hokx, hx0, hxp, hcastx⟩ := get_affine_x_spec P hwf hnz hdz
  obtain ⟨Y, hoky, hy0, hyp, hcasty⟩ := get_affine_y_spec P hwf hnz hdz
  refine ⟨X, Y, hokx, hoky, hx0, hxp, hy0, hyp, ?_⟩
  have hhom : homogEq P := by
    have hchar := check_invariants_char P hnz
    rw [hchk] at hchar
    by_cases hh : homogEq P
    · exact hh
    · rw [if_neg hh] at hchar
      exact absurd hchar (by simp)
  unfold homogEq at hhom
  rw [hcastx, hcasty]
  field_simp
  linear_combination ((P.deMont_z : ZMod P.curve.p)) ^ 8 * hhom

/-! ### Exact behavior of point decompression on curve points -/

theorem decompress_exact {c : CurveGFp} (hwf : c.WF) (x Y : Int)
    (hy0 : 0 ≤ Y) (hyp : Y < (c.p : Int))
    (heq : (Y : ZMod c.p) ^ 2 =
      (x : ZMod c.p) ^ 3 + (c.a : ZMod c.p) * (x : ZMod c.p) + (c.b : ZMod c.p)) :
    decompress_point (decide (Y % 2 = 1)) x c = .ok Y := by
  haveI : Fact c.p.Prime := ⟨hwf.p_prime⟩
  have hgcast : (((c.a * x + x * x * x + c.b) % (c.p : Int) : Int) : ZMod c.p) =
      (Y : ZMod c.p) ^ 2 := by
    rw [intCast_emod_zmod]
    push_cast
    linear_combination -heq
  have hYg : (Y * Y) % (c.p : Int) = ((c.a * x + x * x * x + c.b) % (c.p : Int)) % (c.p : Int) := by
    apply emod_eq_emod_iff_cast.mpr
    rw [hgcast]
    push_cast
    ring
  obtain ⟨hz0, hzp, hzsq⟩ :=
    ressol_spec_of_root ((c.a * x + x * x * x + c.b) % (c.p : Int)) Y hy0 hyp hYg
  have hzY : ((ressol ((c.a * x + x * x * x + c.b) % (c.p : Int)) c.p : Int) : ZMod c.p) = (Y : ZMod c.p) ∨
      ((ressol ((c.a * x + x * x * x + c.b) % (c.p : Int)) c.p : Int) : ZMod c.p) = -(Y : ZMod c.p) := by
    apply sq_eq_sq_iff_eq_or_eq_neg.mp
    have h3 := (emod_eq_emod_iff_cast (p := c.p)).mp hzsq
    rw [intCast_emod_zmod] at h3
    have h4 : ((c.a * x + x * x * x + c.b : Int) : ZMod c.p) = (Y : ZMod c.p) ^ 2 := by
      rw [← intCast_emod_zmod (p := c.p) (c.a * x + x * x * x + c.b)]
      exact hgcast
    push_cast at h3 h4
    linear_combination h3 + h4
  unfold decompress_point
  simp only
  set z := ressol ((c.a * x + x * x * x + c.b) % (c.p : Int)) c.p with hzdef
  rw [if_neg (not_lt.mpr hz0)]
  rcases hzY with h | h
  · have hzeq : z = Y := reduced_eq_of_cast_eq hz0 hzp hy0 hyp h
    rw [hzeq, if_neg (by simp)]
  · by_cases hY0 : Y = 0
    · have hzeq : z = Y := by
        apply reduced_eq_of_cast_eq hz0 hzp hy0 hyp
        rw [h, hY0]
        simp
      rw [hzeq, if_neg (by simp)]
    · have hzeq : z = (c.p : Int) - Y := by
        apply reduced_eq_of_cast_eq hz0 hzp (by omega) (by omega)
        rw [h]
        push_cast [ZMod.natCast_self]
        ring
      have hp2 : (c.p : Int) % 2 = 1 := by
        have := hwf.p_odd
        omega
      have hcond : (decide (z % 2 = 1)) ≠ (decide (Y % 2 = 1)) := by
        intro hc
        have hiff := decide_eq_decide.mp hc
        rw [hzeq] at hiff
        omega
      rw [if_pos hcond, hzeq]
      congr 1
      ring

/-! ### Round-trip lemmas for the octet codec -/

theorem eq_ok_true_of_affine (A B : PointGFp) (hpe : A.curve.paramEq B.curve)
    (hA : ¬ A.is_zero) (vx vy : Int)
    (hax : A.get_affine_x = .ok vx) (hbx : B.get_affine_x = .ok vx)
    (hay : A.get_affine_y = .ok vy) (hby : B.get_affine_y = .ok vy) :
    A.eq B = .ok true := by
  unfold PointGFp.eq
  rw [if_neg (not_not_intro hpe), if_neg hA, hax, hbx, hay, hby]
  simp

theorem OS2ECP_tag2 (b : Nat) (t : List Nat) (curve : CurveGFp) :
    OS2ECP (2 :: b :: t) curve =
      (match decompress_point false ((decodeBE (b :: t) : Nat) : Int) curve with
       | .error e => .error e
       | .ok y =>
         match (PointGFp.fromAffine curve ((decodeBE (b :: t) : Nat) : Int) y).check_invariants with
         | .error e => .error e
         | .ok _ => .ok (PointGFp.fromAffine curve ((decodeBE (b :: t) : Nat) : Int) y)) := rfl

theorem OS2ECP_tag3 (b : Nat) (t : List Nat) (curve : CurveGFp) :
    OS2ECP (3 :: b :: t) curve =
      (match decompress_point true ((decodeBE (b :: t) : Nat) : Int) curve with
       | .error e => .error e
       | .ok y =>
         match (PointGFp.fromAffine curve ((decodeBE (b :: t) : Nat) : Int) y).check_invariants with
         | .error e => .error e
         | .ok _ => .ok (PointGFp.fromAffine curve ((decodeBE (b :: t) : Nat) : Int) y)) := rfl

theorem OS2ECP_tag4 (b : Nat) (t : List Nat) (curve : CurveGFp) :
    OS2ECP (4 :: b :: t) curve =
      (match (PointGFp.fromAffine curve
            ((decodeBE ((b :: t).take ((b :: t).length / 2)) : Nat) : Int)
            ((decodeBE (((b :: t).drop ((b :: t).length / 2)).take ((b :: t).length / 2)) : Nat) : Int)).check_invariants with
       | .error e => .error e
       | .ok _ => .ok (PointGFp.fromAffine curve
            ((decodeBE ((b :: t).take ((b :: t).length / 2)) : Nat) : Int)
            ((decodeBE (((b :: t).drop ((b :: t).length / 2)).take ((b :: t).length / 2)) : Nat) : Int))) := rfl

theorem OS2ECP_tag6 (b : Nat) (t : List Nat) (curve : CurveGFp) :
    OS2ECP (6 :: b :: t) curve =
      (match decompress_point false ((decodeBE ((b :: t).take ((b :: t).length / 2)) : Nat) : Int) curve with
       | .error e => .error e
       | .ok yd =>
         if yd ≠ ((decodeBE (((b :: t).drop ((b :: t).length / 2)).take ((b :: t).length / 2)) : Nat) : Int)
         then .error .illegalPoint
         else
           match (PointGFp.fromAffine curve
              ((decodeBE ((b :: t).take ((b :: t).length / 2)) : Nat) : Int)
              ((decodeBE (((b :: t).drop ((b :: t).length / 2)).take ((b :: t).length / 2)) : Nat) : Int)).check_invariants with
           | .error e => .error e
           | .ok _ => .ok (PointGFp.fromAffine curve
              ((decodeBE ((b :: t).take ((b :: t).length / 2)) : Nat) : Int)
              ((decodeBE (((b :: t).drop ((b :: t).length / 2)).take ((b :: t).length / 2)) : Nat) : Int))) := rfl

theorem OS2ECP_tag7 (b : Nat) (t : List Nat) (curve : CurveGFp) :
    OS2ECP (7 :: b :: t) curve =
      (match decompress_point true ((decodeBE ((b :: t).take ((b :: t).length / 2)) : Nat) : Int) curve with
       | .error e => .error e
       | .ok yd =>
         if yd ≠ ((decodeBE (((b :: t).drop ((b :: t).length / 2)).take ((b :: t).length / 2)) : Nat) : Int)
         then .error .illegalPoint
         else
           match (PointGFp.fromAffine curve
              ((decodeBE ((b :: t).take ((b :: t).length / 2)) : Nat) : Int)
              ((decodeBE (((b :: t).drop ((b :: t).length / 2)).take ((b :: t).length / 2)) : Nat) : Int)).check_invariants with
           | .error e => .error e
           | .ok _ => .ok (PointGFp.fromAffine curve
              ((decodeBE ((b :: t).take ((b :: t).length / 2)) : Nat) : Int)
              ((decodeBE (((b :: t).drop ((b :: t).length / 2)).take ((b :: t).length / 2)) : Nat) : Int))) := rfl

theorem encode_facts {c : CurveGFp} (X : Int) (h0 : 0 ≤ X) (hlt : X < (c.p : Int)) :
    (encode_1363 X (bytesOf c.p)).length = bytesOf c.p ∧
    ((decodeBE (encode_1363 X (bytesOf c.p)) : Nat) : Int) = X := by
  refine ⟨encBE_length _ _, ?_⟩
  have hXp : X.toNat < c.p := by omega
  have hXn : X.toNat < 256 ^ bytesOf c.p := lt_of_lt_of_le hXp (le_of_lt (lt_base256_bytesOf c.p))
  unfold encode_1363
  rw [decodeBE_encBE _ _ hXn]
  exact Int.toNat_of_nonneg h0

theorem EC2OSP_ok_shape (P : PointGFp) (hnz : ¬ P.is_zero) (X Y : Int)
    (hokX : P.get_affine_x = .ok X) (hokY : P.get_affine_y = .ok Y) :
    EC2OSP P PointGFp.UNCOMPRESSED =
      .ok (4 :: (encode_1363 X (bytesOf P.curve.p) ++ encode_1363 Y (bytesOf P.curve.p))) ∧
    EC2OSP P PointGFp.COMPRESSED =
      .ok ((if Y % 2 = 1 then 3 else 2) :: encode_1363 X (bytesOf P.curve.p)) ∧
    EC2OSP P PointGFp.HYBRID =
      .ok ((if Y % 2 = 1 then 7 else 6) ::
        (encode_1363 X (bytesOf P.curve.p) ++ encode_1363 Y (bytesOf P.curve.p))) := by
  refine ⟨?_, ?_, ?_⟩ <;>
    (unfold EC2OSP
     rw [if_neg hnz, hokX, hokY]
     simp [PointGFp.UNCOMPRESSED, PointGFp.COMPRESSED, PointGFp.HYBRID])

theorem roundtrip_uncompressed (P : PointGFp) (hwf : P.curve.WF)
    (hz : ¬ ((P.curve.p : Int) ∣ P.coord_z)) (hchk : P.check_invariants = .ok ()) :
    ∃ bytes, EC2OSP P PointGFp.UNCOMPRESSED = .ok bytes ∧
      ∃ Q, OS2ECP bytes P.curve = .ok Q ∧ Q.eq P = .ok true := by
  have hnz : ¬ P.is_zero := fun h => hz (h ▸ Dvd.intro 0 rfl)
  obtain ⟨X, Y, hokX, hokY, hX0, hXp, hY0, hYp, haff⟩ := valid_point_spec P hwf hz hchk
  obtain ⟨hlenX, hdecX⟩ := encode_facts (c := P.curve) X hX0 hXp
  obtain ⟨hlenY, hdecY⟩ := encode_facts (c := P.curve) Y hY0 hYp
  have hn1 : 0 < bytesOf P.curve.p := bytesOf_pos _ hwf.p_prime.pos
  refine ⟨_, (EC2OSP_ok_shape P hnz X Y hokX hokY).1, ?_⟩
  rcases henc : encode_1363 X (bytesOf P.curve.p) with _ | ⟨xb, xt⟩
  · exfalso
    rw [henc] at hlenX
    simp at hlenX
    omega
  have hrest : xb :: (xt ++ encode_1363 Y (bytesOf P.curve.p)) =
      encode_1363 X (bytesOf P.curve.p) ++ encode_1363 Y (bytesOf P.curve.p) := by
    rw [henc, List.cons_append]
  rw [show (4 : Nat) :: ((xb :: xt) ++ encode_1363 Y (bytesOf P.curve.p)) =
      4 :: xb :: (xt ++ encode_1363 Y (bytesOf P.curve.p)) from by rw [List.cons_append]]
  rw [OS2ECP_tag4, hrest]
  have hl : (encode_1363 X (bytesOf P.curve.p) ++ encode_1363 Y (bytesOf P.curve.p)).length / 2 =
      bytesOf P.curve.p := by
    rw [List.length_append, hlenX, hlenY]
    omega
  rw [hl]
  have htake : (encode_1363 X (bytesOf P.curve.p) ++ encode_1363 Y (bytesOf P.curve.p)).take
      (bytesOf P.curve.p) = encode_1363 X (bytesOf P.curve.p) :=
    List.take_left' hlenX
  have hdrop : (encode_1363 X (bytesOf P.curve.p) ++ encode_1363 Y (bytesOf P.curve.p)).drop
      (bytesOf P.curve.p) = encode_1363 Y (bytesOf P.curve.p) :=
    List.drop_left' hlenX
  have htakeY : (encode_1363 Y (bytesOf P.curve.p)).take (bytesOf P.curve.p) =
      encode_1363 Y (bytesOf P.curve.p) :=
    List.take_of_length_le (le_of_eq hlenY)
  rw [htake, hdrop, htakeY, hdecX, hdecY]
  rw [check_invariants_fromAffine hwf, if_pos haff]
  refine ⟨_, rfl, ?_⟩
  exact eq_ok_true_of_affine _ P (paramEq_refl P.curve) (fromAffine_ne_zero hwf X Y) X Y
    (by rw [get_affine_x_fromAffine hwf, Int.emod_eq_of_lt hX0 hXp]) hokX
    (by rw [get_affine_y_fromAffine hwf, Int.emod_eq_of_lt hY0 hYp]) hokY

theorem roundtrip_compressed (P : PointGFp) (hwf : P.curve.WF)
    (hz : ¬ ((P.curve.p : Int) ∣ P.coord_z)) (hchk : P.check_invariants = .ok ()) :
    ∃ bytes, EC2OSP P PointGFp.COMPRESSED = .ok bytes ∧
      ∃ Q, OS2ECP bytes P.curve = .ok Q ∧ Q.eq P = .ok true := by
  have hnz : ¬ P.is_zero := fun h => hz (h ▸ Dvd.intro 0 rfl)
  obtain ⟨X, Y, hokX, hokY, hX0, hXp, hY0, hYp, haff⟩ := valid_point_spec P hwf hz hchk
  obtain ⟨hlenX, hdecX⟩ := encode_facts (c := P.curve) X hX0 hXp
  have hn1 : 0 < bytesOf P.curve.p := bytesOf_pos _ hwf.p_prime.pos
  have hdecomp := decompress_exact hwf X Y hY0 hYp haff
  have heqQ : (PointGFp.fromAffine P.curve X Y).eq P = .ok true :=
    eq_ok_true_of_affine _ P (paramEq_refl P.curve) (fromAffine_ne_zero hwf X Y) X Y
      (by rw [get_affine_x_fromAffine hwf, Int.emod_eq_of_lt hX0 hXp]) hokX
      (by rw [get_affine_y_fromAffine hwf, Int.emod_eq_of_lt hY0 hYp]) hokY
  refine ⟨_, (EC2OSP_ok_shape P hnz X Y hokX hokY).2.1, ?_⟩
  rcases henc : encode_1363 X (bytesOf P.curve.p) with _ | ⟨xb, xt⟩
  · exfalso
    rw [henc] at hlenX
    simp at hlenX
    omega
  have hrest : (decodeBE (xb :: xt) : Int) = X := by
    rw [← henc, hdecX]
  by_cases hpar : Y % 2 = 1
  · rw [if_pos hpar, OS2ECP_tag3, hrest]
    have hdecomp3 : decompress_point true X P.curve = Except.ok Y := by
      rw [show (true : Bool) = decide (Y % 2 = 1) from by simp [hpar]]
      exact hdecomp
    rw [hdecomp3]
    refine ⟨_, ?_, heqQ⟩
    show (match (PointGFp.fromAffine P.curve X Y).check_invariants with
          | Except.error e => Except.error e
          | Except.ok _ => Except.ok (PointGFp.fromAffine P.curve X Y)) =
        Except.ok (PointGFp.fromAffine P.curve X Y)
    rw [check_invariants_fromAffine hwf, if_pos haff]
  · rw [if_neg hpar, OS2ECP_tag2, hrest]
    have hdecomp2 : decompress_point false X P.curve = Except.ok Y := by
      rw [show (false : Bool) = decide (Y % 2 = 1) from by simp [hpar]]
      exact hdecomp
    rw [hdecomp2]
    refine ⟨_, ?_, heqQ⟩
    show (match (PointGFp.fromAffine P.curve X Y).check_invariants with
          | Except.error e => Except.error e
          | Except.ok _ => Except.ok (PointGFp.fromAffine P.curve X Y)) =
        Except.ok (PointGFp.fromAffine P.curve X Y)
    rw [check_invariants_fromAffine hwf, if_pos haff]

theorem roundtrip_hybrid (P : PointGFp) (hwf : P.curve.WF)
    (hz : ¬ ((P.curve.p : Int) ∣ P.coord_z)) (hchk : P.check_invariants = .ok ()) :
    ∃ bytes, EC2OSP P PointGFp.HYBRID = .ok bytes ∧
      ∃ Q, OS2ECP bytes P.curve = .ok Q ∧ Q.eq P = .ok true := by
  have hnz : ¬ P.is_zero := fun h => hz (h ▸ Dvd.intro 0 rfl)
  obtain ⟨X, Y, hokX, hokY, hX0, hXp, hY0, hYp, haff⟩ := valid_point_spec P hwf hz hchk
  obtain ⟨hlenX, hdecX⟩ := encode_facts (c := P.curve) X hX0 hXp
  obtain ⟨hlenY, hdecY⟩ := encode_facts (c := P.curve) Y hY0 hYp
  have hn1 : 0 < bytesOf P.curve.p := bytesOf_pos _ hwf.p_prime.pos
  have hdecomp := decompress_exact hwf X Y hY0 hYp haff
  have heqQ : (PointGFp.fromAffine P.curve X Y).eq P = .ok true :=
    eq_ok_true_of_affine _ P (paramEq_refl P.curve) (fromAffine_ne_zero hwf X Y) X Y
      (by rw [get_affine_x_fromAffine hwf, Int.emod_eq_of_lt hX0 hXp]) hokX
      (by rw [get_affine_y_fromAffine hwf, Int.emod_eq_of_lt hY0 hYp]) hokY
  refine ⟨_, (EC2OSP_ok_shape P hnz X Y hokX hokY).2.2, ?_⟩
  rcases henc : encode_1363 X (bytesOf P.curve.p) with _ | ⟨xb, xt⟩
  · exfalso
    rw [henc] at hlenX
    simp at hlenX
    omega
  have hrest : xb :: (xt ++ encode_1363 Y (bytesOf P.curve.p)) =
      encode_1363 X (bytesOf P.curve.p) ++ encode_1363 Y (bytesOf P.curve.p) := by
    rw [henc, List.cons_append]
  have hl : (encode_1363 X (bytesOf P.curve.p) ++ encode_1363 Y (bytesOf P.curve.p)).length / 2 =
      bytesOf P.curve.p := by
    rw [List.length_append, hlenX, hlenY]
    omega
  have htake : (encode_1363 X (bytesOf P.curve.p) ++ encode_1363 Y (bytesOf P.curve.p)).take
      (bytesOf P.curve.p) = encode_1363 X (bytesOf P.curve.p) :=
    List.take_left' hlenX
  have hdrop : (encode_1363 X (bytesOf P.curve.p) ++ encode_1363 Y (bytesOf P.curve.p)).drop
      (bytesOf P.curve.p) = encode_1363 Y (bytesOf P.curve.p) :=
    List.drop_left' hlenX
  have htakeY : (encode_1363 Y (bytesOf P.curve.p)).take (bytesOf P.curve.p) =
      encode_1363 Y (bytesOf P.curve.p) :=
    List.take_of_length_le (le_of_eq hlenY)
  by_cases hpar : Y % 2 = 1
  · rw [if_pos hpar]
    rw [show (7 : Nat) :: ((xb :: xt) ++ encode_1363 Y (bytesOf P.curve.p)) =
        7 :: xb :: (xt ++ encode_1363 Y (bytesOf P.curve.p)) from by rw [List.cons_append]]
    rw [OS2ECP_tag7, hrest, hl, htake, hdrop, htakeY, hdecX, hdecY]
    have hdecomp7 : decompress_point true X P.curve = Except.ok Y := by
      rw [show (true : Bool) = decide (Y % 2 = 1) from by simp [hpar]]
      exact hdecomp
    rw [hdecomp7]
    refine ⟨_, ?_, heqQ⟩
    show (if Y ≠ Y then Except.error BotanErr.illegalPoint
          else match (PointGFp.fromAffine P.curve X Y).check_invariants with
            | Except.error e => Except.error e
            | Except.ok _ => Except.ok (PointGFp.fromAffine P.curve X Y)) =
        Except.ok (PointGFp.fromAffine P.curve X Y)
    rw [if_neg (by simp), check_invariants_fromAffine hwf, if_pos haff]
  · rw [if_neg hpar]
    rw [show (6 : Nat) :: ((xb :: xt) ++ encode_1363 Y (bytesOf P.curve.p)) =
        6 :: xb :: (xt ++ encode_1363 Y (bytesOf P.curve.p)) from by rw [List.cons_append]]
    rw [OS2ECP_tag6, hrest, hl, htake, hdrop, htakeY, hdecX, hdecY]
    have hdecomp6 : decompress_point false X P.curve = Except.ok Y := by
      rw [show (false : Bool) = decide (Y % 2 = 1) from by simp [hpar]]
      exact hdecomp
    rw [hdecomp6]
    refine ⟨_, ?_, heqQ⟩
    show (if Y ≠ Y then Except.error BotanErr.illegalPoint
          else match (PointGFp.fromAffine P.curve X Y).check_invariants with
            | Except.error e => Except.error e
            | Except.ok _ => Except.ok (PointGFp.fromAffine P.curve X Y)) =
        Except.ok (PointGFp.fromAffine P.curve X Y)
    rw [if_neg (by simp), check_invariants_fromAffine hwf, if_pos haff]

/-! ### C4: codec round-trip -/

/-- C4: for a valid finite point on a well-formed curve, decoding the
encoding round-trips for each of the three formats, and the point at
infinity encodes to the single zero byte (under any format byte) and
decodes back from it. -/
theorem c4_codec_roundtrip (P : PointGFp) (format : Nat) (hwf : P.curve.WF)
    (hz : ¬ ((P.curve.p : Int) ∣ P.coord_z)) (hchk : P.check_invariants = .ok ())
    (hfmt : format = PointGFp.UNCOMPRESSED ∨ format = PointGFp.COMPRESSED ∨
      format = PointGFp.HYBRID) :
    (∃ bytes, EC2OSP P format = .ok bytes ∧
      ∃ Q, OS2ECP bytes P.curve = .ok Q ∧ Q.eq P = .ok true) ∧
    (∀ (c : CurveGFp) (f : Nat), EC2OSP (PointGFp.zero c) f = .ok [0]) ∧
    (∀ c : CurveGFp, OS2ECP [0] c = .ok (PointGFp.zero c)) := by
  refine ⟨?_, ?_, ?_⟩
  · rcases hfmt with h | h | h <;> subst h
    · exact roundtrip_uncompressed P hwf hz hchk
    · exact roundtrip_compressed P hwf hz hchk
    · exact roundtrip_hybrid P hwf hz hchk
  · intro c f
    unfold EC2OSP
    rw [if_pos (show (PointGFp.zero c).is_zero from rfl)]
  · intro c
    rfl

/-- Witness for C4: the toy-curve point `(3, 10)` in compressed format. -/
theorem c4_witness :
    (∃ bytes, EC2OSP (PointGFp.fromAffine toyCurve 3 10) PointGFp.COMPRESSED = .ok bytes ∧
      ∃ Q, OS2ECP bytes (PointGFp.fromAffine toyCurve 3 10).curve = .ok Q ∧
        Q.eq (PointGFp.fromAffine toyCurve 3 10) = .ok true) ∧
    (∀ (c : CurveGFp) (f : Nat), EC2OSP (PointGFp.zero c) f = .ok [0]) ∧
    (∀ c : CurveGFp, OS2ECP [0] c = .ok (PointGFp.zero c)) :=
  c4_codec_roundtrip (PointGFp.fromAffine toyCurve 3 10) PointGFp.COMPRESSED toyCurve_wf
    (by decide) (by decide) (Or.inr (Or.inl rfl))

/-! ### C6: decompression parity -/

theorem ressol_cases (g : Int) (p : Nat) :
    ressol g p = -1 ∨ (0 ≤ ressol g p ∧ ressol g p < (p : Int)) := by
  unfold ressol
  cases hfind : (List.range p).find? fun (z : Nat) =>
      ((z : Int) * (z : Int)) % (p : Int) = g % (p : Int) with
  | none => exact Or.inl rfl
  | some j =>
    right
    have hmem := List.mem_range.mp (List.mem_of_find?_eq_some hfind)
    have hjp : ((j : Nat) : Int) < (p : Int) := by exact_mod_cast hmem
    exact ⟨Int.ofNat_nonneg j, hjp⟩

theorem decompress_affine_parity {c : CurveGFp} (hwf : c.WF) (yMod2 : Bool) (x yv Y : Int)
    (hdp : decompress_point yMod2 x c = .ok yv)
    (hYeq : Y = yv % (c.p : Int)) (hY0 : Y ≠ 0) :
    decide (Y % 2 = 1) = yMod2 := by
  have hp1 : 1 < c.p := hwf.p_prime.one_lt
  have hp2 : (c.p : Int) % 2 = 1 := by
    have := hwf.p_odd
    omega
  unfold decompress_point at hdp
  simp only at hdp
  rcases ressol_cases ((c.a * x + x * x * x + c.b) % (c.p : Int)) c.p with hneg | ⟨hz0, hzp⟩
  · rw [hneg] at hdp
    simp at hdp
  · rw [if_neg (not_lt.mpr hz0)] at hdp
    by_cases hcond :
        decide ((ressol ((c.a * x + x * x * x + c.b) % (c.p : Int)) c.p) % 2 = 1) ≠ yMod2
    · rw [if_pos hcond] at hdp
      rw [Except.ok.injEq] at hdp
      cases yMod2 with
      | false =>
        simp only [ne_eq, decide_eq_false_iff_not, not_not] at hcond
        have hzodd : (ressol ((c.a * x + x * x * x + c.b) % (c.p : Int)) c.p) % 2 = 1 := hcond
        have hzpos : 0 < ressol ((c.a * x + x * x * x + c.b) % (c.p : Int)) c.p := by omega
        have hYv : Y = (c.p : Int) - ressol ((c.a * x + x * x * x + c.b) % (c.p : Int)) c.p := by
          rw [hYeq, ← hdp, Int.emod_eq_of_lt (by omega) (by omega)]
        simp only [decide_eq_false_iff_not]
        omega
      | true =>
        simp only [ne_eq, decide_eq_true_eq] at hcond
        have hzeven : ¬ (ressol ((c.a * x + x * x * x + c.b) % (c.p : Int)) c.p) % 2 = 1 := hcond
        by_cases hzz : ressol ((c.a * x + x * x * x + c.b) % (c.p : Int)) c.p = 0
        · exfalso
          apply hY0
          rw [hYeq, ← hdp, hzz, sub_zero, Int.emod_self]
        · have hYv : Y = (c.p : Int) - ressol ((c.a * x + x * x * x + c.b) % (c.p : Int)) c.p := by
            rw [hYeq, ← hdp, Int.emod_eq_of_lt (by omega) (by omega)]
          simp only [decide_eq_true_eq]
          omega
    · rw [if_neg hcond] at hdp
      rw [Except.ok.injEq] at hdp
      rw [not_ne_iff] at hcond
      have hYv : Y = ressol ((c.a * x + x * x * x + c.b) % (c.p : Int)) c.p := by
        rw [hYeq, ← hdp, Int.emod_eq_of_lt hz0 hzp]
      rw [← hcond, hYv]

/-- C6 counterexample: decoding the compressed encoding `[0x03, 4]` on the
toy curve succeeds (the curve polynomial vanishes at `x = 4`, the root 0 is
parity-flipped to `p = 23` and reduced back to 0 by the constructor), yet the
affine `y` of the decoded point is 0, whose low bit 0 differs from the low
bit 1 of the tag byte `0x03`. -/
theorem c6_counterexample :
    OS2ECP [3, 4] toyCurve = .ok (PointGFp.mk toyCurve 4 0 1) ∧
    (PointGFp.mk toyCurve 4 0 1).get_affine_y = .ok 0 ∧
    ¬ ((0 : Int) % 2 = (3 : Int) % 2) := by
  refine ⟨by decide, by decide, by decide⟩

/-- C6 amended: for a compressed encoding (tag 2 or 3) that decodes
successfully to a point whose affine `y` is nonzero, the parity of that
affine `y` matches the low bit of the tag; the decoded affine `y` can be
0 (with either tag) exactly in the corner case where the curve polynomial
has the root 0 at the encoded `x`. -/
theorem c6_compressed_parity (pc b : Nat) (t : List Nat) (c : CurveGFp) (Q : PointGFp) (Y : Int)
    (hwf : c.WF) (hpc : pc = 2 ∨ pc = 3)
    (hdec : OS2ECP (pc :: b :: t) c = .ok Q)
    (hY : Q.get_affine_y = .ok Y) (hY0 : Y ≠ 0) :
    Y % 2 = (pc : Int) % 2 := by
  rcases hpc with h | h <;> subst h
  · rw [OS2ECP_tag2] at hdec
    cases hdp : decompress_point false ((decodeBE (b :: t) : Nat) : Int) c with
    | error e =>
      rw [hdp] at hdec
      simp at hdec
    | ok yv =>
      rw [hdp] at hdec
      simp only at hdec
      cases hchk : (PointGFp.fromAffine c ((decodeBE (b :: t) : Nat) : Int) yv).check_invariants with
      | error e =>
        rw [hchk] at hdec
        simp at hdec
      | ok u =>
        rw [hchk] at hdec
        simp only [Except.ok.injEq] at hdec
        subst hdec
        rw [get_affine_y_fromAffine hwf, Except.ok.injEq] at hY
        have hpar := decompress_affine_parity hwf false _ yv Y hdp hY.symm hY0
        simp only [decide_eq_false_iff_not] at hpar
        omega
  · rw [OS2ECP_tag3] at hdec
    cases hdp : decompress_point true ((decodeBE (b :: t) : Nat) : Int) c with
    | error e =>
      rw [hdp] at hdec
      simp at hdec
    | ok yv =>
      rw [hdp] at hdec
      simp only at hdec
      cases hchk : (PointGFp.fromAffine c ((decodeBE (b :: t) : Nat) : Int) yv).check_invariants with
      | error e =>
        rw [hchk] at hdec
        simp at hdec
      | ok u =>
        rw [hchk] at hdec
        simp only [Except.ok.injEq] at hdec
        subst hdec
        rw [get_affine_y_fromAffine hwf, Except.ok.injEq] at hY
        have hpar := decompress_affine_parity hwf true _ yv Y hdp hY.symm hY0
        simp only [decide_eq_true_eq] at hpar
        omega

/-- Witness for the amended C6: decoding `[0x02, 1]` on the toy curve gives
the point `(1, 16)` with even affine `y`, matching the tag's low bit. -/
theorem c6_witness : (16 : Int) % 2 = ((2 : Nat) : Int) % 2 :=
  c6_compressed_parity 2 1 [] toyCurve (PointGFp.mk toyCurve 1 16 1) 16 toyCurve_wf
    (Or.inl rfl) (by decide) (by decide) (by decide)

/-! ### C5: OS2ECP error characterization -/

theorem OS2ECP_invalid_tag (pc b : Nat) (t : List Nat) (curve : CurveGFp)
    (h2 : pc ≠ 2) (h3 : pc ≠ 3) (h4 : pc ≠ 4) (h6 : pc ≠ 6) (h7 : pc ≠ 7) :
    OS2ECP (pc :: b :: t) curve = .error .invalidArgument := by
  unfold OS2ECP
  simp only
  rw [if_neg (by simp [h2, h3]), if_neg h4, if_neg (by simp [h6, h7])]

theorem check_invariants_error_kind (pt : PointGFp) :
    pt.check_invariants = .ok () ∨ pt.check_invariants = .error .illegalPoint := by
  by_cases hz : pt.is_zero
  · left
    unfold PointGFp.check_invariants
    rw [if_pos hz]
  · rw [check_invariants_char pt hz]
    by_cases hh : homogEq pt <;> simp [hh]

theorem decompress_error_kind (ym : Bool) (x : Int) (c : CurveGFp) :
    (∃ y, decompress_point ym x c = .ok y) ∨ decompress_point ym x c = .error .illegalPoint := by
  unfold decompress_point
  simp only
  split_ifs <;> simp

theorem decompress_error_iff (ym : Bool) (x : Int) (c : CurveGFp) :
    decompress_point ym x c = .error .illegalPoint ↔
      ressol ((c.a * x + x * x * x + c.b) % (c.p : Int)) c.p < 0 := by
  unfold decompress_point
  simp only
  split_ifs with h1 h2 <;> simp [h1]

theorem c5_tag23 (pc b : Nat) (t : List Nat) (curve : CurveGFp) (hpc : pc = 2 ∨ pc = 3) :
    (OS2ECP (pc :: b :: t) curve = .error .illegalPoint ↔
      (decompress_point (decide (pc % 2 = 1)) ((decodeBE (b :: t) : Nat) : Int) curve =
         .error .illegalPoint ∨
       ∃ y, decompress_point (decide (pc % 2 = 1)) ((decodeBE (b :: t) : Nat) : Int) curve = .ok y ∧
         (PointGFp.fromAffine curve ((decodeBE (b :: t) : Nat) : Int) y).check_invariants =
           .error .illegalPoint)) ∧
    OS2ECP (pc :: b :: t) curve ≠ .error .invalidArgument := by
  rcases hpc with h | h <;> subst h
  · rw [OS2ECP_tag2]
    rw [show (decide (2 % 2 = 1) : Bool) = false from by decide]
    rcases decompress_error_kind false ((decodeBE (b :: t) : Nat) : Int) curve with ⟨y, hy⟩ | herr
    · rw [hy]
      simp only
      rcases check_invariants_error_kind
          (PointGFp.fromAffine curve ((decodeBE (b :: t) : Nat) : Int) y) with hok | herr2
      · rw [hok]
        simp [hy, hok]
      · rw [herr2]
        refine ⟨⟨fun _ => Or.inr ⟨y, rfl, herr2⟩, fun _ => rfl⟩, by simp⟩
    · rw [herr]
      simp [herr]
  · rw [OS2ECP_tag3]
    rw [show (decide (3 % 2 = 1) : Bool) = true from by decide]
    rcases decompress_error_kind true ((decodeBE (b :: t) : Nat) : Int) curve with ⟨y, hy⟩ | herr
    · rw [hy]
      simp only
      rcases check_invariants_error_kind
          (PointGFp.fromAffine curve ((decodeBE (b :: t) : Nat) : Int) y) with hok | herr2
      · rw [hok]
        simp [hy, hok]
      · rw [herr2]
        refine ⟨⟨fun _ => Or.inr ⟨y, rfl, herr2⟩, fun _ => rfl⟩, by simp⟩
    · rw [herr]
      simp [herr]

theorem c5_tag4 (b : Nat) (t : List Nat) (curve : CurveGFp) :
    (OS2ECP (4 :: b :: t) curve = .error .illegalPoint ↔
      (PointGFp.fromAffine curve
        ((decodeBE ((b :: t).take ((b :: t).length / 2)) : Nat) : Int)
        ((decodeBE (((b :: t).drop ((b :: t).length / 2)).take ((b :: t).length / 2)) : Nat) : Int)).check_invariants =
          .error .illegalPoint) ∧
    OS2ECP (4 :: b :: t) curve ≠ .error .invalidArgument := by
  rw [OS2ECP_tag4]
  rcases check_invariants_error_kind
      (PointGFp.fromAffine curve
        ((decodeBE ((b :: t).take ((b :: t).length / 2)) : Nat) : Int)
        ((decodeBE (((b :: t).drop ((b :: t).length / 2)).take ((b :: t).length / 2)) : Nat) : Int))
      with hok | herr
  · rw [hok]
    simp [hok]
  · rw [herr]
    refine ⟨⟨fun _ => rfl, fun _ => rfl⟩, by simp⟩

theorem c5_tag67 (pc b : Nat) (t : List Nat) (curve : CurveGFp) (hpc : pc = 6 ∨ pc = 7) :
    (OS2ECP (pc :: b :: t) curve = .error .illegalPoint ↔
      (decompress_point (decide (pc % 2 = 1))
          ((decodeBE ((b :: t).take ((b :: t).length / 2)) : Nat) : Int) curve =
         .error .illegalPoint ∨
       (∃ yd, decompress_point (decide (pc % 2 = 1))
            ((decodeBE ((b :: t).take ((b :: t).length / 2)) : Nat) : Int) curve = .ok yd ∧
          yd ≠ ((decodeBE (((b :: t).drop ((b :: t).length / 2)).take ((b :: t).length / 2)) : Nat) : Int)) ∨
       (decompress_point (decide (pc % 2 = 1))
            ((decodeBE ((b :: t).take ((b :: t).length / 2)) : Nat) : Int) curve =
          .ok ((decodeBE (((b :: t).drop ((b :: t).length / 2)).take ((b :: t).length / 2)) : Nat) : Int) ∧
        (PointGFp.fromAffine curve
            ((decodeBE ((b :: t).take ((b :: t).length / 2)) : Nat) : Int)
            ((decodeBE (((b :: t).drop ((b :: t).length / 2)).take ((b :: t).length / 2)) : Nat) : Int)).check_invariants =
          .error .illegalPoint))) ∧
    OS2ECP (pc :: b :: t) curve ≠ .error .invalidArgument := by
  rcases hpc with h | h <;> subst h
  · rw [OS2ECP_tag6, show (decide (6 % 2 = 1) : Bool) = false from by decide]
    rcases decompress_error_kind false
        ((decodeBE ((b :: t).take ((b :: t).length / 2)) : Nat) : Int) curve with ⟨yd, hy⟩ | herr
    · rw [hy]
      simp only
      by_cases hne : yd = ((decodeBE (((b :: t).drop ((b :: t).length / 2)).take ((b :: t).length / 2)) : Nat) : Int)
      · rw [if_neg (not_not_intro hne)]
        rcases check_invariants_error_kind
            (PointGFp.fromAffine curve
              ((decodeBE ((b :: t).take ((b :: t).length / 2)) : Nat) : Int)
              ((decodeBE (((b :: t).drop ((b :: t).length / 2)).take ((b :: t).length / 2)) : Nat) : Int))
            with hok | herr2
        · rw [hok]
          simp [hne]
        · rw [herr2]
          refine ⟨⟨fun _ => Or.inr (Or.inr ⟨by rw [hne], rfl⟩), fun _ => rfl⟩, by simp⟩
      · rw [if_pos hne]
        refine ⟨⟨fun _ => Or.inr (Or.inl ⟨yd, rfl, hne⟩), fun _ => rfl⟩, by simp⟩
    · rw [herr]
      refine ⟨⟨fun _ => Or.inl rfl, fun _ => rfl⟩, by simp⟩
  · rw [OS2ECP_tag7, show (decide (7 % 2 = 1) : Bool) = true from by decide]
    rcases decompress_error_kind true
        ((decodeBE ((b :: t).take ((b :: t).length / 2)) : Nat) : Int) curve with ⟨yd, hy⟩ | herr
    · rw [hy]
      simp only
      by_cases hne : yd = ((decodeBE (((b :: t).drop ((b :: t).length / 2)).take ((b :: t).length / 2)) : Nat) : Int)
      · rw [if_neg (not_not_intro hne)]
        rcases check_invariants_error_kind
            (PointGFp.fromAffine curve
              ((decodeBE ((b :: t).take ((b :: t).length / 2)) : Nat) : Int)
              ((decodeBE (((b :: t).drop ((b :: t).length / 2)).take ((b :: t).length / 2)) : Nat) : Int))
            with hok | herr2
        · rw [hok]
          simp [hne]
        · rw [herr2]
          refine ⟨⟨fun _ => Or.inr (Or.inr ⟨by rw [hne], rfl⟩), fun _ => rfl⟩, by simp⟩
      · rw [if_pos hne]
        refine ⟨⟨fun _ => Or.inr (Or.inl ⟨yd, rfl, hne⟩), fun _ => rfl⟩, by simp⟩
    · rw [herr]
      refine ⟨⟨fun _ => Or.inl rfl, fun _ => rfl⟩, by simp⟩

/-- C5: OS2ECP error behavior. Inputs of length at most 1 decode to
infinity; for longer inputs, `Invalid_Argument` is raised exactly for a
tag byte outside {2,3,4,6,7}; decompression fails with `Illegal_Point`
exactly when no modular square root exists; and `Illegal_Point` is raised
exactly when decompression fails, a hybrid cross-check mismatches, or the
constructed point fails the curve-equation check. -/
theorem c5_os2ecp_error_characterization (curve : CurveGFp) (pc b : Nat) (t : List Nat) :
    (∀ data : List Nat, data.length ≤ 1 → OS2ECP data curve = .ok (PointGFp.zero curve)) ∧
    (∀ (ym : Bool) (x : Int),
      decompress_point ym x curve = .error .illegalPoint ↔
        ressol ((curve.a * x + x * x * x + curve.b) % (curve.p : Int)) curve.p < 0) ∧
    (OS2ECP (pc :: b :: t) curve = .error .invalidArgument ↔
      ¬ (pc = 2 ∨ pc = 3 ∨ pc = 4 ∨ pc = 6 ∨ pc = 7)) ∧
    (pc = 2 ∨ pc = 3 →
      (OS2ECP (pc :: b :: t) curve = .error .illegalPoint ↔
        (decompress_point (decide (pc % 2 = 1)) ((decodeBE (b :: t) : Nat) : Int) curve =
           .error .illegalPoint ∨
         ∃ y, decompress_point (decide (pc % 2 = 1)) ((decodeBE (b :: t) : Nat) : Int) curve =
             .ok y ∧
           (PointGFp.fromAffine curve ((decodeBE (b :: t) : Nat) : Int) y).check_invariants =
             .error .illegalPoint))) ∧
    (pc = 4 →
      (OS2ECP (pc :: b :: t) curve = .error .illegalPoint ↔
        (PointGFp.fromAffine curve
          ((decodeBE ((b :: t).take ((b :: t).length / 2)) : Nat) : Int)
          ((decodeBE (((b :: t).drop ((b :: t).length / 2)).take ((b :: t).length / 2)) : Nat) : Int)).check_invariants =
            .error .illegalPoint)) ∧
    (pc = 6 ∨ pc = 7 →
      (OS2ECP (pc :: b :: t) curve = .error .illegalPoint ↔
        (decompress_point (decide (pc % 2 = 1))
            ((decodeBE ((b :: t).take ((b :: t).length / 2)) : Nat) : Int) curve =
           .error .illegalPoint ∨
         (∃ yd, decompress_point (decide (pc % 2 = 1))
              ((decodeBE ((b :: t).take ((b :: t).length / 2)) : Nat) : Int) curve = .ok yd ∧
            yd ≠ ((decodeBE (((b :: t).drop ((b :: t).length / 2)).take ((b :: t).length / 2)) : Nat) : Int)) ∨
         (decompress_point (decide (pc % 2 = 1))
              ((decodeBE ((b :: t).take ((b :: t).length / 2)) : Nat) : Int) curve =
            .ok ((decodeBE (((b :: t).drop ((b :: t).length / 2)).take ((b :: t).length / 2)) : Nat) : Int) ∧
          (PointGFp.fromAffine curve
              ((decodeBE ((b :: t).take ((b :: t).length / 2)) : Nat) : Int)
              ((decodeBE (((b :: t).drop ((b :: t).length / 2)).take ((b :: t).length / 2)) : Nat) : Int)).check_invariants =
            .error .illegalPoint)))) := by
  refine ⟨?_, ?_, ?_, ?_, ?_, ?_⟩
  · intro data h
    rcases data with _ | ⟨a, _ | ⟨a2, t2⟩⟩
    · rfl
    · rfl
    · simp at h
  · intro ym x
    exact decompress_error_iff ym x curve
  · by_cases htag : pc = 2 ∨ pc = 3 ∨ pc = 4 ∨ pc = 6 ∨ pc = 7
    · refine iff_of_false ?_ (not_not_intro htag)
      rcases htag with h | h | h | h | h
      · exact (c5_tag23 pc b t curve (Or.inl h)).2
      · exact (c5_tag23 pc b t curve (Or.inr h)).2
      · subst h
        exact (c5_tag4 b t curve).2
      · exact (c5_tag67 pc b t curve (Or.inl h)).2
      · exact (c5_tag67 pc b t curve (Or.inr h)).2
    · push_neg at htag
      obtain ⟨h2, h3, h4, h6, h7⟩ := htag
      refine iff_of_true (OS2ECP_invalid_tag pc b t curve h2 h3 h4 h6 h7) ?_
      simp [h2, h3, h4, h6, h7]
  · intro hpc
    exact (c5_tag23 pc b t curve hpc).1
  · intro hpc
    subst hpc
    exact (c5_tag4 b t curve).1
  · intro hpc
    exact (c5_tag67 pc b t curve hpc).1

/-- Witness for C5: tag 9 is rejected with `Invalid_Argument` on the toy
curve, and short inputs decode to infinity. -/
theorem c5_witness :
    OS2ECP [9, 1] toyCurve = .error .invalidArgument ∧
    OS2ECP [0] toyCurve = .ok (PointGFp.zero toyCurve) := by
  have h := c5_os2ecp_error_characterization toyCurve 9 1 []
  exact ⟨h.2.2.1.mpr (by decide), h.1 [0] (by decide)⟩

end Botan
